import Mathlib

/-!
Verification of the fsspec byte-range caching core against its specification.

The Python source is shallowly embedded: byte strings become `List Nat`,
dictionaries become association lists, and stateful methods become explicit
state-passing functions. Where a method body is absent from the source tree
(only its signature and docstring remain), the corresponding definition is
modelled from the specification and marked as such in its doc comment.
-/

set_option maxHeartbeats 1000000
set_option maxRecDepth 4000

namespace FsSpec

/-- Byte strings are modelled as lists of naturals. -/
abbrev Bytes := List Nat

/-- The fetcher contract of caching.py: a function of the form f(start, end)
which gets bytes from remote as specified. -/
abbrev Fetcher := Nat → Nat → Bytes

/-- The `data` dictionary of `KnownPartsOfAFile`: a mapping from explicit
(start, stop) file-offset tuples to known bytes, as an association list. -/
abbrev PartsDict := List ((Nat × Nat) × Bytes)

/-- Lexicographic comparison of (start, stop) tuples, as Python's `sorted`
compares tuple dictionary keys. -/
def pairLe (a b : Nat × Nat) : Bool :=
  decide (a.1 < b.1) || (decide (a.1 = b.1) && decide (a.2 ≤ b.2))

/-- Propositional form of `pairLe`. -/
def keyLe (a b : Nat × Nat) : Prop := pairLe a b = true

instance : DecidableRel keyLe := fun a b => by unfold keyLe; infer_instance

instance : IsTotal (Nat × Nat) keyLe :=
  ⟨by intro a b; unfold keyLe pairLe; by_cases h : a.1 < b.1 <;> by_cases h2 : a.1 = b.1 <;> simp_all <;> omega⟩

instance : IsTrans (Nat × Nat) keyLe :=
  ⟨by intro a b c; unfold keyLe pairLe; simp; omega⟩

instance : IsAntisymm (Nat × Nat) keyLe where
  antisymm a b h1 h2 := by
    obtain ⟨a1, a2⟩ := a
    obtain ⟨b1, b2⟩ := b
    unfold keyLe pairLe at h1 h2
    simp at h1 h2 ⊢
    omega

/-- Embedding of `sorted(data.keys())` from `KnownPartsOfAFile.__init__`
(a stable comparison sort; on the distinct keys of a dictionary any
comparison sort produces the same list). -/
def sortKeys (d : PartsDict) : List (Nat × Nat) :=
  (d.map Prod.fst).insertionSort keyLe

/-- Dictionary lookup `data[k]` on the association-list model (keys are
unique in a Python dict, so the first match is the entry). -/
def dictGet : PartsDict → (Nat × Nat) → Bytes
  | [], _ => []
  | e :: rest, k => if e.1 = k then e.2 else dictGet rest k

/-- Embedding of `data.pop(k)`: returns the stored bytes and the dictionary
with the entry removed. -/
def dictPop (d : PartsDict) (k : Nat × Nat) : Bytes × PartsDict :=
  (dictGet d k, d.eraseP (fun e => decide (e.1 = k)))

/-- The merging loop of `KnownPartsOfAFile.__init__` (caching.py): walk the
sorted offsets, popping each from `data`; merge a range into the running
last range exactly when its start equals the running range's stop, else
start a new part. `cur` is the running `(offsets[-1], blocks[-1])` pair.
Returns the finished parts in order together with the mutated dictionary. -/
def kpLoop (cur : (Nat × Nat) × Bytes) :
    List (Nat × Nat) → PartsDict → PartsDict × PartsDict
  | [], d => ([cur], d)
  | k :: rest, d =>
    let pr := dictPop d k
    if k.1 = cur.1.2 then
      kpLoop ((cur.1.1, k.2), cur.2 ++ pr.1) rest pr.2
    else
      let res := kpLoop ((k.1, k.2), pr.1) rest pr.2
      (cur :: res.1, res.2)

/-- State of a `KnownPartsOfAFile` cache. The fetcher is optional: the class
is routinely constructed with `fetcher=None`, in which case reads outside
the known parts raise. -/
structure KnownPartsOfAFile where
  blocksize : Nat
  fetcher : Option Fetcher
  size : Nat
  strict : Bool
  data : PartsDict

/-- Embedding of `KnownPartsOfAFile.__init__`. Returns the constructed cache
together with the caller's `data` dictionary as left mutated by the
constructor's `pop` calls. An empty dictionary is falsy, so it is left
untouched and the stored parts are empty. -/
def KnownPartsOfAFile.init (blocksize : Nat) (fetcher : Option Fetcher)
    (size : Nat) (data : PartsDict) (strict : Bool) :
    KnownPartsOfAFile × PartsDict :=
  match sortKeys data with
  | [] => (⟨blocksize, fetcher, size, strict, []⟩, data)
  | k0 :: rest =>
    let pr0 := dictPop data k0
    let res := kpLoop (k0, pr0.1) rest pr0.2
    (⟨blocksize, fetcher, size, strict, res.1⟩, res.2)

/-- Dictionary-free form of the merging loop, used to reason about the
stored parts: it walks the already-sorted association list directly. -/
def kpLoopPure (cur : (Nat × Nat) × Bytes) : PartsDict → PartsDict
  | [] => [cur]
  | e :: rest =>
    if e.1.1 = cur.1.2 then kpLoopPure ((cur.1.1, e.1.2), cur.2 ++ e.2) rest
    else cur :: kpLoopPure e rest

/-- Ordering of table entries by their keys. -/
def entryLe (a b : (Nat × Nat) × Bytes) : Prop := keyLe a.1 b.1

instance : DecidableRel entryLe := fun a b => by unfold entryLe; infer_instance

instance : IsTotal ((Nat × Nat) × Bytes) entryLe :=
  ⟨fun a b => IsTotal.total (r := keyLe) a.1 b.1⟩

instance : IsTrans ((Nat × Nat) × Bytes) entryLe :=
  ⟨fun _ _ _ h1 h2 => IsTrans.trans (r := keyLe) _ _ _ h1 h2⟩

/-- Sorting the association list itself by key, the dictionary-free
counterpart of `sorted(data.keys())`. -/
def sortAssoc (d : PartsDict) : PartsDict :=
  d.insertionSort entryLe

/-- Whether consecutive stored ranges are separated by a strictly positive
gap. A list of ranges forms a minimal set of maximal contiguous ranges for
its coverage exactly when it is sorted and gapped: touching or overlapping
neighbours could be combined into one contiguous range. -/
def gappedB : List (Nat × Nat) → Bool
  | [] => true
  | [_] => true
  | p :: q :: rest => decide (p.2 < q.1) && gappedB (q :: rest)

/-- Whether byte offset x falls inside the range of one entry. -/
def inRangeB (e : (Nat × Nat) × Bytes) (x : Nat) : Bool :=
  decide (e.1.1 ≤ x) && decide (x < e.1.2)

/-- Whether byte offset x is covered by some entry of the table. -/
def coversB (d : PartsDict) (x : Nat) : Bool :=
  d.any (fun e => inRangeB e x)

/-- The whole merge-on-construct computation in dictionary-free form. -/
def kpMergePure : PartsDict → PartsDict
  | [] => []
  | c :: rest => kpLoopPure c rest

/-- A ranged entry is well formed: a nonempty range whose stored bytes have
exactly the range's length (as a Python dict of known file parts has). -/
def validEntry (e : (Nat × Nat) × Bytes) : Prop :=
  e.1.1 < e.1.2 ∧ e.2.length = e.1.2 - e.1.1

/-- One entry ends at or before the next begins. -/
def sepLe (a b : (Nat × Nat) × Bytes) : Prop := a.1.2 ≤ b.1.1

/-- Two ranged entries occupy disjoint byte ranges. -/
def disjointEntry (a b : (Nat × Nat) × Bytes) : Prop :=
  a.1.2 ≤ b.1.1 ∨ b.1.2 ≤ a.1.1

/-- A stored part arises by merging input ranges: there is a nonempty run
of entries of the input dictionary, consecutive ranges exactly adjacent
(each one's stop equals the next one's start, so the run is in increasing
order), spanning exactly the part's range, whose bytes concatenated in
order are the part's bytes. -/
def mergedOf (data : PartsDict) (p : (Nat × Nat) × Bytes) : Prop :=
  ∃ run : PartsDict, run ≠ [] ∧
    (∀ r ∈ run, r ∈ data) ∧
    List.Chain' (fun a b => a.1.2 = b.1.1) run ∧
    (∃ h tl2, run = h :: tl2 ∧ h.1.1 = p.1.1) ∧
    (∃ t, run.getLast? = some t ∧ t.1.2 = p.1.2) ∧
    p.2 = (run.map Prod.snd).flatten

instance : DecidableRel disjointEntry :=
  fun a b => by unfold disjointEntry; infer_instance

instance : DecidablePred validEntry :=
  fun e => by unfold validEntry; infer_instance

/-- Contract of the byte-range fetcher (spec section 6): for
`start <= end <= file_size` it returns exactly `end - start` bytes. -/
def FetcherOK (size : Nat) (f : Fetcher) : Prop :=
  ∀ s e, s ≤ e → e ≤ size → (f s e).length = e - s

/-- First known part whose range contains `start`, mirroring the iteration
over `self.data.items()` with condition `loc0 <= start < loc1`. -/
def findPart (parts : PartsDict) (start : Nat) :
    Option ((Nat × Nat) × Bytes) :=
  parts.find? (fun e => decide (e.1.1 ≤ start) && decide (start < e.1.2))

/-- Fetch the range `[start, stop)` behind an already-served prefix, or
raise (None) when no fetcher is configured. -/
def fetchOrRaise (f : Option Fetcher) (pre : Bytes) (start stop : Nat) :
    Option Bytes :=
  match f with
  | none => none
  | some fe => some (pre ++ fe start stop)

/-- Modelled from the spec: the body of `KnownPartsOfAFile._fetch` is absent
from the source tree (only the class and its docstring remain). Per the
docstring and the known-parts variant description: a read starting inside a
known part is served from it; if it ends beyond that part's stop, strict
mode fetches the uncovered tail (raising when no fetcher is configured)
while non-strict mode zero-pads the tail; a read whose start lies outside
every known part is fetched whole or raises, and is never zero padded. -/
def KnownPartsOfAFile.fetch (c : KnownPartsOfAFile) (start stop : Nat) :
    Option Bytes :=
  match findPart c.data start with
  | some e =>
    let out := (e.2.drop (start - e.1.1)).take (stop - start)
    if c.strict = false ∨ stop ≤ e.1.2 then
      some (out ++ List.replicate (stop - start - out.length) 0)
    else
      fetchOrRaise c.fetcher out (start + out.length) stop
  | none => fetchOrRaise c.fetcher [] start stop

/-- Modelled from the spec: the bodies of `AbstractBufferedFile.write`,
`flush`, `_upload_chunk` and `close` are absent from the source (signatures
and docstrings remain). State of a write-mode buffered file: the pending
write buffer, the chunks handed to the backend's upload primitive in order
(each with its `final` flag), the `forced` marker set by the closing flush,
and the closed flag. -/
structure WriteFile where
  blocksize : Nat
  buffer : Bytes
  uploads : List (Bytes × Bool)
  forced : Bool
  closed : Bool
deriving DecidableEq

/-- A freshly opened write-mode file: empty buffer, nothing uploaded. -/
def WriteFile.mkNew (B : Nat) : WriteFile := ⟨B, [], [], false, false⟩

/-- Modelled from the spec: `flush(force)` with force uploads the remaining
buffer regardless of size, marking the upload final; without force it
uploads one block-sized chunk once the buffer holds at least a block,
retaining the remainder, and otherwise does nothing. -/
def WriteFile.flush (st : WriteFile) (force : Bool) : WriteFile :=
  if force then
    { st with uploads := st.uploads ++ [(st.buffer, true)], buffer := [],
              forced := true }
  else if st.blocksize ≤ st.buffer.length then
    { st with uploads := st.uploads ++ [(st.buffer.take st.blocksize, false)],
              buffer := st.buffer.drop st.blocksize }
  else st

/-- Modelled from the spec: `write(data)` appends to the write buffer and
flushes once the buffer holds at least one block. -/
def WriteFile.write (st : WriteFile) (data : Bytes) : WriteFile :=
  WriteFile.flush { st with buffer := st.buffer ++ data } false

/-- Modelled from the spec: `close()` on an already-closed file returns
immediately; otherwise it performs the final forced flush (unless one was
already forced) and marks the file closed. -/
def WriteFile.close (st : WriteFile) : WriteFile :=
  if st.closed then st
  else { (if st.forced then st else st.flush true) with closed := true }

/-- Write a sequence of chunks in order. -/
def WriteFile.writeAll (st : WriteFile) (chunks : List Bytes) : WriteFile :=
  chunks.foldl WriteFile.write st

/-- Concatenation of all chunks handed to the upload primitive, in order. -/
def uploadedBytes (st : WriteFile) : Bytes :=
  (st.uploads.map Prod.fst).flatten

/-- Invariant of an open write-mode file mid-stream: the buffer holds less
than one block, the file is open and not force-flushed, and every upload so
far was a non-final full block. -/
def WriteInv (B : Nat) (st : WriteFile) : Prop :=
  st.blocksize = B ∧ st.buffer.length < B ∧ st.closed = false ∧
    st.forced = false ∧ ∀ u ∈ st.uploads, u.2 = false ∧ u.1.length = B

/-- Modelled from the spec: a task of the chunked batch runner, by its
already-determined outcome — a result or a captured error (the
`stop_on_error=False` mode captures exceptions in place). -/
inductive Outcome where
  | ok (v : Nat)
  | err (e : Nat)
deriving DecidableEq

/-- Modelled from the spec: one batch runs concurrently; every member
settles, outcomes are captured index-aligned, and the progress callback
fires once per completed task, success or failure alike. The second
component counts the callback invocations. -/
def runBatch (b : List Outcome) : List Outcome × Nat := (b, b.length)

/-- Run batches strictly in sequence, concatenating their outcome lists and
summing their progress-callback counts. -/
def runBatches : List (List Outcome) → List Outcome × Nat
  | [] => ([], 0)
  | b :: rest =>
    ((runBatch b).1 ++ (runBatches rest).1, (runBatch b).2 + (runBatches rest).2)

/-- Modelled from the spec: the body of `_run_coros_in_chunks` (asyn.py) is
absent from the source (only signature and docstring remain). It splits the
task list into consecutive batches of `batch_size`, awaits each batch fully
before starting the next, and returns per-item outcomes index-aligned with
the input, firing the progress callback once per completed task. -/
def runCorosInChunks (tasks : List Outcome) (batchSize : Nat) :
    List Outcome × Nat :=
  runBatches (List.toChunks batchSize tasks)

/-- The registered cache strategy names selectable by a read-mode
buffered file. -/
inductive CacheType where
  | none_ | mmap | readahead | first | blockcache | bytes | all | parts
  | background
deriving DecidableEq

/-- A raised Python-level error during construction. -/
inductive PyErr where
  | typeErr
deriving DecidableEq

/-- Outcome of `caches[cache_type](blocksize, fetcher, size, **options)` as
far as the size argument is concerned, with default options. From the
constructor sources: BlockCache and BackgroundBlockCache compute
`math.ceil(size / blocksize)`, FirstChunkCache compares
`blocksize > size`, and AllBytes adds the size to its requested-bytes
counter before fetching the whole file — each a TypeError when the size is
None. MMapCache's `_makefile` body is absent; modelled from the spec's
fixed-size backing store of `file_size` bytes, which needs a known size.
The remaining constructors only store the size and succeed. -/
def cacheCtorSizeCheck (ct : CacheType) (size : Option Nat) :
    Except PyErr Unit :=
  match ct, size with
  | .blockcache, none => .error .typeErr
  | .background, none => .error .typeErr
  | .first, none => .error .typeErr
  | .all, none => .error .typeErr
  | .mmap, none => .error .typeErr
  | _, _ => .ok ()

/-- The read-mode state recorded by `AbstractBufferedFile.__init__`. -/
structure BufferedFileRB where
  blocksize : Nat
  size : Option Nat
  cacheType : CacheType
deriving DecidableEq

/-- The read-mode branch of `AbstractBufferedFile.__init__` (spec.py): the
size is the explicit argument when given, else the backend's details size;
then the cache is constructed. No check of the strategy's pass-through
capability appears anywhere in the constructor. -/
def AbstractBufferedFile.initRB (blocksize : Nat)
    (sizeArg detailsSize : Option Nat) (ct : CacheType) :
    Except PyErr BufferedFileRB :=
  match cacheCtorSizeCheck ct (match sizeArg with
    | some s => some s
    | none => detailsSize) with
  | .ok _ => .ok ⟨blocksize,
      (match sizeArg with | some s => some s | none => detailsSize), ct⟩
  | .error e => .error e

/-- The strategies the spec calls pass-through-capable, i.e. legal with an
unknown file size: pass-through and the growing buffer. -/
def passThroughCapable : CacheType → Bool
  | .none_ => true
  | .bytes => true
  | _ => false

/-- Embedding of `UpdatableLRU` (caching.py, code present): an ordered map
from keys to values — front is least recently used, back most recent — with
hit and miss counters. Keys (block numbers) and values (fetched blocks) are
encoded as naturals. -/
structure UpdatableLRU where
  cache : List (Nat × Nat)
  maxSize : Nat
  hits : Nat
  misses : Nat
deriving DecidableEq

/-- A fresh LRU of capacity m, as built by `BlockCache.__init__` and
`BackgroundBlockCache.__init__` with `maxblocks`. -/
def UpdatableLRU.mkNew (m : Nat) : UpdatableLRU := ⟨[], m, 0, 0⟩

/-- Ordered-dict membership lookup `args in self._cache`. -/
def lruLookup : List (Nat × Nat) → Nat → Option Nat
  | [], _ => none
  | e :: rest, k => if e.1 = k then some e.2 else lruLookup rest k

/-- `OrderedDict.move_to_end`: remove the entry and reinsert at the back. -/
def moveToEnd (c : List (Nat × Nat)) (k v : Nat) : List (Nat × Nat) :=
  c.eraseP (fun e => decide (e.1 = k)) ++ [(k, v)]

/-- Embedding of `UpdatableLRU.__call__` (caching.py, code present): on a
hit the entry moves to the back, the hit counter bumps and the cached value
is returned without calling the function; on a miss the function is called,
its result stored at the back, the miss counter bumps, and the front
(least recently used) entry is popped when the size exceeds max_size. The
Bool records whether the underlying function was invoked. -/
def UpdatableLRU.call (f : Nat → Nat) (s : UpdatableLRU) (k : Nat) :
    Nat × UpdatableLRU × Bool :=
  match lruLookup s.cache k with
  | some v =>
    (v, { s with cache := moveToEnd s.cache k v, hits := s.hits + 1 }, false)
  | none =>
    (f k,
     { s with
        cache :=
          if s.maxSize < (s.cache ++ [(k, f k)]).length then
            (s.cache ++ [(k, f k)]).drop 1
          else s.cache ++ [(k, f k)],
        misses := s.misses + 1 },
     true)

/-- The state after a call. -/
def UpdatableLRU.callState (f : Nat → Nat) (s : UpdatableLRU) (k : Nat) :
    UpdatableLRU :=
  (UpdatableLRU.call f s k).2.1

/-- The key the next call would evict, when it evicts one: a miss that
overflows pops the front entry. -/
def UpdatableLRU.evicted (s : UpdatableLRU) (k : Nat) : Option Nat :=
  match lruLookup s.cache k with
  | some _ => none
  | none =>
    if s.maxSize < s.cache.length + 1 then
      match s.cache with
      | [] => some k
      | e :: _ => some e.1
    else none

/-- Run a request sequence from a fresh cache of capacity m. -/
def runLRU (f : Nat → Nat) (m : Nat) (ks : List Nat) : UpdatableLRU :=
  ks.foldl (UpdatableLRU.callState f) (UpdatableLRU.mkNew m)

/-- One-based position of the last occurrence of k in the request sequence
(0 when k never occurs): every request for a key touches it — a hit moves
it to the back, a miss inserts it — so this is the key's last-touch time. -/
def lastReq : List Nat → Nat → Nat
  | [], _ => 0
  | x :: xs, k =>
    if lastReq xs k ≠ 0 then lastReq xs k + 1
    else if x = k then 1 else 0

/-- Invariant of the LRU after serving the request sequence `pre`: every
cached value is the function of its key, every resident key was requested,
and the order lists keys by strictly increasing last-touch time (front =
least recently touched). -/
def LRUInv (f : Nat → Nat) (pre : List Nat) (s : UpdatableLRU) : Prop :=
  (∀ e ∈ s.cache, e.2 = f e.1 ∧ lastReq pre e.1 ≠ 0) ∧
    List.Pairwise (fun a b => lastReq pre a.1 < lastReq pre b.1) s.cache

/-- Modelled from the spec: the body of `BaseCache._fetch` is absent from
the source. The pass-through cache keeps nothing and issues exactly one
fetch for the exact requested range. -/
def BaseCache.fetch (f : Fetcher) (start stop : Nat) : Bytes := f start stop

/-- Modelled from the spec: the read path of `AllBytes` is absent from the
source (its constructor, present in src, fetches the entire file once);
every read is served by slicing the stored data. -/
def AllBytes.read (f : Fetcher) (size : Nat) (start stop : Nat) : Bytes :=
  ((f 0 size).drop start).take (stop - start)

/-- Modelled from the spec: the read path of `FirstChunkCache` is absent
from the source. The block size is clamped to the file size at
construction (code present in src); a read starting inside the first block
is served from the cached first block, fetching what lies beyond it; a
read starting past the first block goes straight to the fetcher. -/
def FirstChunkCache.read (f : Fetcher) (B size : Nat) (start stop : Nat) :
    Bytes :=
  if start < min B size then
    ((f 0 (min B size)).drop start).take (min stop (min B size) - start)
      ++ (if min B size < stop then f (min B size) stop else [])
  else f start stop

/-- Modelled from the spec: the sparse memory-mapped cache backs the file
with a fixed-size store of file_size cells; loading a block writes its
range into the store, and a read returns the stop-start cells of the
post-load store. -/
def MMapCache.read (store : Nat → Nat) (start stop : Nat) : Bytes :=
  (List.range (stop - start)).map (fun i => store (start + i))

/-- Buffer window kept by the read-ahead and growing-buffer caches: the
bytes of the file range [start, stop). -/
structure WindowState where
  cache : Bytes
  start : Nat
  stop : Nat
deriving DecidableEq

/-- Well-formed window: it holds exactly its range's bytes and lies within
the file. -/
def WindowWF (size : Nat) (st : WindowState) : Prop :=
  st.cache.length = st.stop - st.start ∧ st.start ≤ st.stop ∧ st.stop ≤ size

/-- Modelled from the spec: the body of `ReadAheadCache._fetch` is absent
from the source. A read fully inside the window is served from the buffer;
any other read triggers one fetch that replaces the window, reading ahead
by the block size (never less than the request, clamped to the file
size). -/
def ReadAheadCache.read (f : Fetcher) (size B : Nat) (st : WindowState)
    (start stop : Nat) : Bytes × WindowState :=
  if st.start ≤ start ∧ stop ≤ st.stop then
    ((st.cache.drop (start - st.start)).take (stop - start), st)
  else
    ((f start (min (max (start + B) stop) size)).take (stop - start),
     ⟨f start (min (max (start + B) stop) size), start,
      start + (f start (min (max (start + B) stop) size)).length⟩)

/-- Modelled from the spec: the body of `BytesCache._fetch` is absent from
the source. A read inside the window is served from the growing buffer; a
forward read starting inside but ending beyond it extends the buffer with
one fetch (reading ahead a block); any other read replaces the buffer. The
trim option only discards already-served bytes more than a block behind
the read position from the retained buffer; it does not affect what a read
returns and is omitted from the state model. -/
def BytesCache.read (f : Fetcher) (size B : Nat) (st : WindowState)
    (start stop : Nat) : Bytes × WindowState :=
  if st.start ≤ start ∧ stop ≤ st.stop then
    ((st.cache.drop (start - st.start)).take (stop - start), st)
  else if st.start ≤ start ∧ start ≤ st.stop then
    (((st.cache ++ f st.stop (min (max stop (st.stop + B)) size)).drop
        (start - st.start)).take (stop - start),
     ⟨st.cache ++ f st.stop (min (max stop (st.stop + B)) size), st.start,
      st.stop + (f st.stop (min (max stop (st.stop + B)) size)).length⟩)
  else
    ((f start (min (max stop (start + B)) size)).take (stop - start),
     ⟨f start (min (max stop (start + B)) size), start,
      start + (f start (min (max stop (start + B)) size)).length⟩)

/-- State of a `BlockCache`: the fields set by `__init__` (present in src:
nblocks = ceil(size/blocksize), the LRU of at most maxblocks blocks) plus a
log of the ranges passed to the fetcher, recording every fetch call. -/
structure BlockCache where
  blocksize : Nat
  size : Nat
  nblocks : Nat
  maxblocks : Nat
  lru : List (Nat × Bytes)
  log : List (Nat × Nat)
deriving DecidableEq

/-- A fresh block cache, as `BlockCache.__init__` builds it. -/
def BlockCache.mkNew (B size maxblocks : Nat) : BlockCache :=
  ⟨B, size, (size + B - 1) / B, maxblocks, [], []⟩

/-- Assoc lookup in the block LRU. -/
def blockLookup : List (Nat × Bytes) → Nat → Option Bytes
  | [], _ => none
  | e :: rest, k => if e.1 = k then some e.2 else blockLookup rest k

/-- Modelled from the spec: `_fetch_block` (body absent) fetches block k's
range [k*blocksize, min((k+1)*blocksize, size)); the lru_cache wrapper
(stdlib functools) serves a cached block without fetching, moves a touched
block to the most-recent end, and evicts the least recently used block
beyond maxblocks — the same discipline as the repository's UpdatableLRU. -/
def BlockCache.fetchBlockCached (f : Fetcher) (c : BlockCache) (k : Nat) :
    Bytes × BlockCache :=
  match blockLookup c.lru k with
  | some v =>
    (v, { c with lru := c.lru.eraseP (fun e => decide (e.1 = k)) ++ [(k, v)] })
  | none =>
    (f (k * c.blocksize) (min ((k + 1) * c.blocksize) c.size),
     { c with
        lru :=
          if c.maxblocks
              < (c.lru ++ [(k, f (k * c.blocksize)
                  (min ((k + 1) * c.blocksize) c.size))]).length then
            (c.lru ++ [(k, f (k * c.blocksize)
                (min ((k + 1) * c.blocksize) c.size))]).drop 1
          else c.lru ++ [(k, f (k * c.blocksize)
              (min ((k + 1) * c.blocksize) c.size))],
        log := c.log ++ [(k * c.blocksize,
          min ((k + 1) * c.blocksize) c.size)] })

/-- Fetch n consecutive blocks starting at block i0, assembling their
contents in order. -/
def BlockCache.fetchBlocks (f : Fetcher) (c : BlockCache) (i0 : Nat) :
    Nat → Bytes × BlockCache
  | 0 => ([], c)
  | n + 1 =>
    ((c.fetchBlockCached f i0).1
        ++ (BlockCache.fetchBlocks f (c.fetchBlockCached f i0).2 (i0 + 1) n).1,
     (BlockCache.fetchBlocks f (c.fetchBlockCached f i0).2 (i0 + 1) n).2)

/-- Modelled from the spec: the bodies of `BlockCache._fetch` (inherited),
`_fetch_block` and `_read_cache` are absent from the source. A read clamps
to the file, fetches each spanned block through the LRU, and slices the
assembled blocks to the exact requested sub-range. -/
def BlockCache.read (f : Fetcher) (c : BlockCache) (start stop : Nat) :
    Bytes × BlockCache :=
  if stop ≤ start ∨ c.size ≤ start then ([], c)
  else
    ((((c.fetchBlocks f (start / c.blocksize)
        ((min stop c.size - 1) / c.blocksize + 1 - start / c.blocksize)).1).drop
          (start - start / c.blocksize * c.blocksize)).take
        (min stop c.size - start),
     (c.fetchBlocks f (start / c.blocksize)
        ((min stop c.size - 1) / c.blocksize + 1 - start / c.blocksize)).2)

/-- The background-prefetch cache's synchronous read path is the same
blockwise assembly through its LRU (`UpdatableLRU` holds the blocks; the
background thread only populates the same LRU opportunistically and is not
modelled). -/
def BackgroundBlockCache.read (f : Fetcher) (c : BlockCache)
    (start stop : Nat) : Bytes × BlockCache :=
  BlockCache.read f c start stop

/-- Well-formed block LRU: every resident block holds exactly its range's
bytes as the fetcher returns them. -/
def BlockWF (f : Fetcher) (c : BlockCache) : Prop :=
  ∀ e ∈ c.lru,
    e.2 = f (e.1 * c.blocksize) (min ((e.1 + 1) * c.blocksize) c.size)

theorem dictGet_eraseP_ne (d : PartsDict) (k k' : Nat × Nat) (h : k' ≠ k) :
    dictGet (d.eraseP (fun e => decide (e.1 = k))) k' = dictGet d k' := by
  induction d with
  | nil => rfl
  | cons e rest ih =>
    by_cases he : e.1 = k
    · have hne : e.1 ≠ k' := fun hc => h (hc ▸ he ▸ rfl)
      simp [List.eraseP_cons, he, dictGet, hne, Ne.symm h]
    · simp [List.eraseP_cons, he, dictGet, ih]

theorem keys_eraseP (d : PartsDict) (k : Nat × Nat) :
    (d.eraseP (fun e => decide (e.1 = k))).map Prod.fst
      = (d.map Prod.fst).eraseP (fun x => decide (x = k)) := by
  induction d with
  | nil => rfl
  | cons e rest ih =>
    by_cases he : e.1 = k <;>
      simp [List.eraseP_cons, he, ih]

theorem erase_key_step (d : PartsDict) (k : Nat × Nat) (ks : List (Nat × Nat))
    (hp : (d.map Prod.fst).Perm (k :: ks)) (hnd : (d.map Prod.fst).Nodup) :
    ((d.eraseP (fun e => decide (e.1 = k))).map Prod.fst).Perm ks ∧
      ((d.eraseP (fun e => decide (e.1 = k))).map Prod.fst).Nodup ∧ k ∉ ks := by
  have hkks : (k :: ks).Nodup := hp.nodup hnd
  have hknotin : k ∉ ks := (List.nodup_cons.mp hkks).1
  have hpair : List.Pairwise
      (fun a b => decide (a = k) = true → decide (b = k) = true → False)
      (d.map Prod.fst) :=
    hnd.imp (fun hne ha hb =>
      hne (by rw [of_decide_eq_true ha, of_decide_eq_true hb]))
  refine ⟨?_, ?_, hknotin⟩
  · rw [keys_eraseP]
    have h2 := List.Perm.eraseP (fun x => decide (x = k)) hpair hp
    simpa [List.eraseP_cons] using h2
  · rw [keys_eraseP]
    exact (List.eraseP_sublist _).nodup hnd

theorem kpLoop_eq_pure (ks : List (Nat × Nat)) :
    ∀ (d : PartsDict) (cur : (Nat × Nat) × Bytes),
    (d.map Prod.fst).Perm ks → (d.map Prod.fst).Nodup →
    kpLoop cur ks d
      = (kpLoopPure cur (ks.map fun k => (k, dictGet d k)), []) := by
  induction ks with
  | nil =>
    intro d cur hp _
    have hd : d = [] := by
      have hmap : d.map Prod.fst = [] := hp.eq_nil
      cases d with
      | nil => rfl
      | cons a l => simp at hmap
    subst hd; rfl
  | cons k ks ih =>
    intro d cur hp hnd
    obtain ⟨hkeys2, hnd2, hknotin⟩ := erase_key_step d k ks hp hnd
    have hvals :
        ks.map (fun k' => (k', dictGet (d.eraseP (fun e => decide (e.1 = k))) k'))
          = ks.map (fun k' => (k', dictGet d k')) :=
      List.map_congr_left (fun a ha => by
        have hne : a ≠ k := fun h => hknotin (h ▸ ha)
        rw [dictGet_eraseP_ne _ _ _ hne])
    by_cases hb : k.1 = cur.1.2
    · simp only [kpLoop, dictPop, hb, if_true]
      rw [ih _ _ hkeys2 hnd2, hvals]
      simp [kpLoopPure, hb]
    · simp only [kpLoop, dictPop, hb, if_false]
      rw [ih _ _ hkeys2 hnd2, hvals]
      simp [kpLoopPure, hb]

theorem dictGet_of_mem (d : PartsDict) (e : (Nat × Nat) × Bytes)
    (hnd : (d.map Prod.fst).Nodup) (he : e ∈ d) : dictGet d e.1 = e.2 := by
  induction d with
  | nil => simp at he
  | cons a rest ih =>
    simp only [List.map_cons, List.nodup_cons] at hnd
    rcases List.mem_cons.mp he with rfl | hrest
    · simp [dictGet]
    · have h2 : e.1 ∈ rest.map Prod.fst := List.mem_map_of_mem _ hrest
      have hne : a.1 ≠ e.1 := fun h => hnd.1 (h ▸ h2)
      simp only [dictGet, if_neg hne]
      exact ih hnd.2 hrest

theorem sortKeys_eq_map_fst_sortAssoc (d : PartsDict) :
    sortKeys d = (sortAssoc d).map Prod.fst := by
  apply List.eq_of_perm_of_sorted (r := keyLe)
  · exact (List.perm_insertionSort _ _).trans
      (((List.perm_insertionSort entryLe d).map Prod.fst).symm)
  · exact List.sorted_insertionSort _ _
  · rw [List.Sorted, List.pairwise_map]
    exact List.Pairwise.imp (fun h => h) (List.sorted_insertionSort entryLe d)

theorem sortAssoc_eq (d : PartsDict) (hnd : (d.map Prod.fst).Nodup) :
    sortAssoc d = (sortKeys d).map (fun k => (k, dictGet d k)) := by
  rw [sortKeys_eq_map_fst_sortAssoc, List.map_map]
  symm
  have hcongr : ∀ e ∈ sortAssoc d,
      ((fun k => (k, dictGet d k)) ∘ Prod.fst) e = id e := by
    intro e he
    have hed : e ∈ d := (List.perm_insertionSort entryLe d).mem_iff.mp he
    simp [Function.comp, dictGet_of_mem d e hnd hed]
  rw [List.map_congr_left hcongr, List.map_id]

theorem init_eq_pure (B : Nat) (f : Option Fetcher) (sz : Nat) (d : PartsDict)
    (strict : Bool) (hnd : (d.map Prod.fst).Nodup) :
    KnownPartsOfAFile.init B f sz d strict
      = (⟨B, f, sz, strict, kpMergePure (sortAssoc d)⟩, []) := by
  unfold KnownPartsOfAFile.init
  cases hsk : sortKeys d with
  | nil =>
    have hd : d = [] := by
      have hperm : (d.map Prod.fst).Perm [] :=
        hsk ▸ (List.perm_insertionSort keyLe (d.map Prod.fst)).symm
      have hmap : d.map Prod.fst = [] := hperm.eq_nil
      cases d with
      | nil => rfl
      | cons a l => simp at hmap
    subst hd; rfl
  | cons k0 rest =>
    have hperm : (d.map Prod.fst).Perm (k0 :: rest) :=
      hsk ▸ (List.perm_insertionSort keyLe (d.map Prod.fst)).symm
    obtain ⟨hkeys2, hnd2, hknotin⟩ := erase_key_step d k0 rest hperm hnd
    have hvals :
        rest.map (fun k' => (k', dictGet (d.eraseP (fun e => decide (e.1 = k0))) k'))
          = rest.map (fun k' => (k', dictGet d k')) :=
      List.map_congr_left (fun a ha => by
        have hne : a ≠ k0 := fun h => hknotin (h ▸ ha)
        rw [dictGet_eraseP_ne _ _ _ hne])
    simp only [dictPop]
    rw [kpLoop_eq_pure rest _ _ hkeys2 hnd2, hvals]
    rw [sortAssoc_eq d hnd, hsk]
    rfl

theorem coversB_perm {l l' : PartsDict} (h : l.Perm l') (x : Nat) :
    coversB l x = coversB l' x := by
  rw [Bool.eq_iff_iff]
  simp only [coversB, List.any_eq_true]
  constructor
  · rintro ⟨e, he, hf⟩; exact ⟨e, h.mem_iff.mp he, hf⟩
  · rintro ⟨e, he, hf⟩; exact ⟨e, h.mem_iff.mpr he, hf⟩

theorem kpLoopPure_spec (l : PartsDict) : ∀ cur,
    List.Pairwise sepLe (cur :: l) → (∀ e ∈ cur :: l, validEntry e) →
    (∃ hd tl, kpLoopPure cur l = hd :: tl ∧ hd.1.1 = cur.1.1) ∧
      gappedB ((kpLoopPure cur l).map Prod.fst) = true ∧
      (∀ x, coversB (kpLoopPure cur l) x = (inRangeB cur x || coversB l x)) ∧
      (∀ p ∈ kpLoopPure cur l, validEntry p) := by
  induction l with
  | nil =>
    intro cur _ hv
    refine ⟨⟨cur, [], rfl, rfl⟩, rfl, ?_, ?_⟩
    · intro x; simp [kpLoopPure, coversB]
    · intro p hp
      apply hv
      simp only [kpLoopPure] at hp
      simpa using hp
  | cons e rest ih =>
    intro cur hp hv
    have hpc := List.pairwise_cons.mp hp
    have hpe : List.Pairwise sepLe (e :: rest) := hpc.2
    have hcur_e : sepLe cur e := hpc.1 e (List.mem_cons_self _ _)
    have hvc : validEntry cur := hv cur (List.mem_cons_self _ _)
    have hve : validEntry e :=
      hv e (List.mem_cons_of_mem _ (List.mem_cons_self _ _))
    obtain ⟨hvc1, hvc2⟩ := hvc
    obtain ⟨hve1, hve2⟩ := hve
    by_cases hb : e.1.1 = cur.1.2
    · have hstep : kpLoopPure cur (e :: rest)
          = kpLoopPure ((cur.1.1, e.1.2), cur.2 ++ e.2) rest := by
        simp [kpLoopPure, hb]
      have hp2 : List.Pairwise sepLe (((cur.1.1, e.1.2), cur.2 ++ e.2) :: rest) := by
        rw [List.pairwise_cons]
        exact ⟨fun x hx => (List.pairwise_cons.mp hpe).1 x hx,
          (List.pairwise_cons.mp hpe).2⟩
      have hv2 : ∀ a ∈ ((cur.1.1, e.1.2), cur.2 ++ e.2) :: rest, validEntry a := by
        intro a ha
        rcases List.mem_cons.mp ha with rfl | ha2
        · exact ⟨by simp only []; omega,
            by simp only [List.length_append]; omega⟩
        · exact hv a (List.mem_cons_of_mem _ (List.mem_cons_of_mem _ ha2))
      obtain ⟨⟨hd, tl, hout, hhd⟩, hgap, hcov, hval⟩ := ih _ hp2 hv2
      refine ⟨⟨hd, tl, by rw [hstep]; exact hout, hhd⟩,
        by rw [hstep]; exact hgap, ?_, by rw [hstep]; exact hval⟩
      intro x
      rw [hstep, hcov x]
      have hmerge : inRangeB ((cur.1.1, e.1.2), cur.2 ++ e.2) x
          = (inRangeB cur x || inRangeB e x) := by
        rw [Bool.eq_iff_iff]
        simp only [inRangeB, Bool.and_eq_true, Bool.or_eq_true, decide_eq_true_eq]
        omega
      rw [hmerge]
      simp [coversB, List.any_cons, Bool.or_assoc]
    · have hstep : kpLoopPure cur (e :: rest) = cur :: kpLoopPure e rest := by
        simp [kpLoopPure, hb]
      have hv3 : ∀ a ∈ e :: rest, validEntry a :=
        fun a ha => hv a (List.mem_cons_of_mem _ ha)
      obtain ⟨⟨hd, tl, hout, hhd⟩, hgap, hcov, hval⟩ := ih e hpe hv3
      rw [hstep]
      refine ⟨⟨cur, kpLoopPure e rest, rfl, rfl⟩, ?_, ?_, ?_⟩
      · rw [List.map_cons, hout, List.map_cons]
        have hlt : cur.1.2 < hd.1.1 := by
          rw [hhd]
          unfold sepLe at hcur_e
          omega
        have hg2 : gappedB (hd.1 :: tl.map Prod.fst) = true := by
          have hh := hgap
          rw [hout, List.map_cons] at hh
          exact hh
        simp [gappedB, hlt, hg2]
      · intro x
        have hx := hcov x
        simp only [coversB, List.any_cons] at hx ⊢
        rw [hx]
      · intro p hp2
        rcases List.mem_cons.mp hp2 with rfl | h2
        · exact ⟨hvc1, hvc2⟩
        · exact hval p h2

theorem sortAssoc_sepLe (d : PartsDict)
    (hval : ∀ e ∈ d, validEntry e)
    (hdisj : List.Pairwise disjointEntry d) :
    List.Pairwise sepLe (sortAssoc d) := by
  have hperm := List.perm_insertionSort entryLe d
  have hdisj2 : List.Pairwise disjointEntry (sortAssoc d) :=
    (List.Perm.pairwise_iff (fun h => h.symm) hperm).mpr hdisj
  have hsorted : List.Pairwise entryLe (sortAssoc d) :=
    List.sorted_insertionSort entryLe d
  refine (hsorted.and hdisj2).imp_of_mem ?_
  intro a b ha hb hab
  obtain ⟨hle, hdisj3⟩ := hab
  obtain ⟨hva1, _⟩ := hval a (hperm.mem_iff.mp ha)
  obtain ⟨hvb1, _⟩ := hval b (hperm.mem_iff.mp hb)
  unfold entryLe keyLe pairLe at hle
  simp only [Bool.or_eq_true, Bool.and_eq_true, decide_eq_true_eq] at hle
  unfold disjointEntry at hdisj3
  unfold sepLe
  omega

theorem kpMergePure_spec (d : PartsDict)
    (hval : ∀ e ∈ d, validEntry e)
    (hdisj : List.Pairwise disjointEntry d) :
    gappedB ((kpMergePure (sortAssoc d)).map Prod.fst) = true ∧
      (∀ x, coversB (kpMergePure (sortAssoc d)) x = coversB d x) ∧
      (∀ p ∈ kpMergePure (sortAssoc d), validEntry p) := by
  have hperm : (sortAssoc d).Perm d := List.perm_insertionSort entryLe d
  have hvalS : ∀ e ∈ sortAssoc d, validEntry e :=
    fun e he => hval e (hperm.mem_iff.mp he)
  have hsep := sortAssoc_sepLe d hval hdisj
  cases hS : sortAssoc d with
  | nil =>
    have hd : d = [] := (hS ▸ hperm).symm.eq_nil
    subst hd
    exact ⟨rfl, fun x => rfl, fun p hp => by simp [kpMergePure] at hp⟩
  | cons c rest =>
    rw [hS] at hsep hvalS
    obtain ⟨_, hgap, hcov, hval2⟩ := kpLoopPure_spec rest c hsep hvalS
    refine ⟨hgap, ?_, hval2⟩
    intro x
    have h1 : coversB (kpMergePure (c :: rest)) x
        = coversB (c :: rest) x := by
      have hx := hcov x
      simp only [kpMergePure, coversB, List.any_cons] at hx ⊢
      rw [hx]
    rw [h1, ← hS, coversB_perm hperm]

theorem kpLoopPure_mergedOf (d : PartsDict) (l : PartsDict) :
    ∀ (cur : (Nat × Nat) × Bytes) (run : PartsDict), run ≠ [] →
      (∀ r ∈ run, r ∈ d) → (∀ r ∈ l, r ∈ d) →
      List.Chain' (fun a b => a.1.2 = b.1.1) run →
      (∃ h tl2, run = h :: tl2 ∧ h.1.1 = cur.1.1) →
      (∃ t, run.getLast? = some t ∧ t.1.2 = cur.1.2) →
      cur.2 = (run.map Prod.snd).flatten →
      ∀ p ∈ kpLoopPure cur l, mergedOf d p := by
  induction l with
  | nil =>
    intro cur run hne hmem _ hchain hhead hlast hbytes p hp
    have hp2 : p = cur := by
      simp only [kpLoopPure, List.mem_singleton] at hp
      exact hp
    subst hp2
    exact ⟨run, hne, hmem, hchain, hhead, hlast, hbytes⟩
  | cons e rest ih =>
    intro cur run hne hmem hmeml hchain hhead hlast hbytes p hp
    have hed : e ∈ d := hmeml e (List.mem_cons_self _ _)
    have hrestd : ∀ r ∈ rest, r ∈ d :=
      fun r hr => hmeml r (List.mem_cons_of_mem _ hr)
    by_cases hb : e.1.1 = cur.1.2
    · have hstep : kpLoopPure cur (e :: rest)
          = kpLoopPure ((cur.1.1, e.1.2), cur.2 ++ e.2) rest := by
        simp [kpLoopPure, hb]
      rw [hstep] at hp
      refine ih _ (run ++ [e]) (by simp) ?_ hrestd ?_ ?_ ?_ ?_ p hp
      · intro r hr
        rcases List.mem_append.mp hr with h1 | h2
        · exact hmem r h1
        · simp only [List.mem_singleton] at h2
          subst h2
          exact hed
      · refine List.Chain'.append hchain (List.chain'_singleton e) ?_
        intro x hx y hy
        obtain ⟨t, ht, ht2⟩ := hlast
        rw [ht] at hx
        simp only [Option.mem_def, Option.some.injEq] at hx
        simp only [List.head?_cons, Option.mem_def, Option.some.injEq] at hy
        subst hx
        subst hy
        rw [ht2, hb]
      · obtain ⟨h, tl2, hrun, hh⟩ := hhead
        refine ⟨h, tl2 ++ [e], ?_, hh⟩
        rw [hrun, List.cons_append]
      · exact ⟨e, List.getLast?_concat _, rfl⟩
      · show cur.2 ++ e.2 = ((run ++ [e]).map Prod.snd).flatten
        rw [hbytes, List.map_append, List.flatten_append]
        simp
    · have hstep : kpLoopPure cur (e :: rest) = cur :: kpLoopPure e rest := by
        simp [kpLoopPure, hb]
      rw [hstep] at hp
      rcases List.mem_cons.mp hp with rfl | hp2
      · exact ⟨run, hne, hmem, hchain, hhead, hlast, hbytes⟩
      · refine ih e [e] (by simp) ?_ hrestd (List.chain'_singleton e)
          ⟨e, [], rfl, rfl⟩ ⟨e, rfl, rfl⟩ (by simp) p hp2
        intro r hr
        simp only [List.mem_singleton] at hr
        subst hr
        exact hed

theorem kpMergePure_mergedOf (d : PartsDict) :
    ∀ p ∈ kpMergePure (sortAssoc d), mergedOf d p := by
  have hperm : (sortAssoc d).Perm d := List.perm_insertionSort entryLe d
  cases hS : sortAssoc d with
  | nil => intro p hp; simp [kpMergePure] at hp
  | cons c rest =>
    intro p hp
    have hcmem : c ∈ sortAssoc d := by
      rw [hS]; exact List.mem_cons_self _ _
    have hcd : c ∈ d := hperm.mem_iff.mp hcmem
    have hrestd : ∀ r ∈ rest, r ∈ d := by
      intro r hr
      have hr2 : r ∈ sortAssoc d := by
        rw [hS]; exact List.mem_cons_of_mem _ hr
      exact hperm.mem_iff.mp hr2
    have hp2 : p ∈ kpLoopPure c rest := hp
    refine kpLoopPure_mergedOf d rest c [c] (by simp) ?_ hrestd
      (List.chain'_singleton c) ⟨c, [], rfl, rfl⟩ ⟨c, rfl, rfl⟩ (by simp)
      p hp2
    intro r hr
    simp only [List.mem_singleton] at hr
    subst hr
    exact hcd

/-- C6: for every input dictionary the constructor sorts the ranges and
merges exactly-adjacent neighbours in one pass; when the input ranges are
pairwise disjoint and nonempty this yields stored parts that are separated
by strictly positive gaps (so no two stored parts could be combined: the
cover is the minimal set of maximal contiguous ranges), cover exactly the
byte offsets covered by the input, and carry bytes of exactly each part's
extent (the in-order concatenation of the merged ranges' bytes). -/
theorem claimC6_amended (B sz : Nat) (f : Option Fetcher) (strict : Bool)
    (d : PartsDict)
    (hnd : (d.map Prod.fst).Nodup)
    (hval : ∀ e ∈ d, validEntry e)
    (hdisj : List.Pairwise disjointEntry d) :
    gappedB (((KnownPartsOfAFile.init B f sz d strict).1.data).map Prod.fst)
        = true ∧
      (∀ x, coversB ((KnownPartsOfAFile.init B f sz d strict).1.data) x
        = coversB d x) ∧
      (∀ p ∈ (KnownPartsOfAFile.init B f sz d strict).1.data,
        p.2.length = p.1.2 - p.1.1) ∧
      (∀ p ∈ (KnownPartsOfAFile.init B f sz d strict).1.data,
        mergedOf d p) := by
  rw [init_eq_pure B f sz d strict hnd]
  obtain ⟨h1, h2, h3⟩ := kpMergePure_spec d hval hdisj
  exact ⟨h1, h2, fun p hp => (h3 p hp).2, kpMergePure_mergedOf d⟩

/-- C6 witness: a concrete disjoint input dictionary on which the amended
claim evaluates: two touching ranges merge into one part, a separated one
stays apart; offset 3 is covered on both sides, and the merged part's bytes
have the merged extent. -/
theorem claimC6_witness :
    gappedB (((KnownPartsOfAFile.init 1 none 10
        [((6, 7), [60]), ((0, 2), [1, 2]), ((2, 5), [3, 4, 5])] true).1.data).map
          Prod.fst) = true ∧
      coversB ((KnownPartsOfAFile.init 1 none 10
        [((6, 7), [60]), ((0, 2), [1, 2]), ((2, 5), [3, 4, 5])] true).1.data) 3
        = coversB [((6, 7), [60]), ((0, 2), [1, 2]), ((2, 5), [3, 4, 5])] 3 ∧
      (((0, 5), [1, 2, 3, 4, 5]) : (Nat × Nat) × Bytes).2.length = 5 - 0 ∧
      mergedOf [((6, 7), [60]), ((0, 2), [1, 2]), ((2, 5), [3, 4, 5])]
        ((0, 5), [1, 2, 3, 4, 5]) :=
  ⟨(claimC6_amended 1 10 none true
      [((6, 7), [60]), ((0, 2), [1, 2]), ((2, 5), [3, 4, 5])]
      (by decide) (by decide) (by decide)).1,
   (claimC6_amended 1 10 none true
      [((6, 7), [60]), ((0, 2), [1, 2]), ((2, 5), [3, 4, 5])]
      (by decide) (by decide) (by decide)).2.1 3,
   (claimC6_amended 1 10 none true
      [((6, 7), [60]), ((0, 2), [1, 2]), ((2, 5), [3, 4, 5])]
      (by decide) (by decide) (by decide)).2.2.1 ((0, 5), [1, 2, 3, 4, 5])
      (by decide),
   (claimC6_amended 1 10 none true
      [((6, 7), [60]), ((0, 2), [1, 2]), ((2, 5), [3, 4, 5])]
      (by decide) (by decide) (by decide)).2.2.2 ((0, 5), [1, 2, 3, 4, 5])
      (by decide)⟩

/-- C6 counterexample: for the overlapping input ranges [0,2) and [1,3) the
one-pass adjacency merge stores two overlapping parts, which is not the
minimal set of maximal contiguous ranges covering the input (that would be
the single range [0,3)): the stored ranges are not even gap-separated. -/
theorem claimC6_counterexample :
    ((KnownPartsOfAFile.init 1 none 3
        [((0, 2), [10, 11]), ((1, 3), [12, 13])] true).1.data).map Prod.fst
      = [(0, 2), (1, 3)] ∧
    gappedB (((KnownPartsOfAFile.init 1 none 3
        [((0, 2), [10, 11]), ((1, 3), [12, 13])] true).1.data).map Prod.fst)
      = false := by decide

/-- C10: constructing `KnownPartsOfAFile` with a non-empty data dictionary
pops every entry from the caller's dictionary, leaving it empty, while
blocksize, fetcher, size (and strict) are stored unchanged. -/
theorem claimC10_init_drains_dict (B sz : Nat) (f : Option Fetcher)
    (strict : Bool) (d : PartsDict) (_hne : d ≠ [])
    (hnd : (d.map Prod.fst).Nodup) :
    (KnownPartsOfAFile.init B f sz d strict).2 = [] ∧
      (KnownPartsOfAFile.init B f sz d strict).1.blocksize = B ∧
      (KnownPartsOfAFile.init B f sz d strict).1.fetcher = f ∧
      (KnownPartsOfAFile.init B f sz d strict).1.size = sz ∧
      (KnownPartsOfAFile.init B f sz d strict).1.strict = strict := by
  rw [init_eq_pure B f sz d strict hnd]
  exact ⟨rfl, rfl, rfl, rfl, rfl⟩

/-- C10 witness: the drain property evaluated on a concrete dictionary. -/
theorem claimC10_witness :
    (KnownPartsOfAFile.init 4 (some (fun _ _ => [])) 10
        [((6, 7), [60]), ((0, 2), [1, 2])] true).2 = [] ∧
      (KnownPartsOfAFile.init 4 (some (fun _ _ => [])) 10
        [((6, 7), [60]), ((0, 2), [1, 2])] true).1.blocksize = 4 ∧
      (KnownPartsOfAFile.init 4 (some (fun _ _ => [])) 10
        [((6, 7), [60]), ((0, 2), [1, 2])] true).1.fetcher
          = some (fun _ _ => []) ∧
      (KnownPartsOfAFile.init 4 (some (fun _ _ => [])) 10
        [((6, 7), [60]), ((0, 2), [1, 2])] true).1.size = 10 ∧
      (KnownPartsOfAFile.init 4 (some (fun _ _ => [])) 10
        [((6, 7), [60]), ((0, 2), [1, 2])] true).1.strict = true :=
  claimC10_init_drains_dict 4 10 (some (fun _ _ => [])) true
    [((6, 7), [60]), ((0, 2), [1, 2])] (by decide) (by decide)

theorem kp_fetch_found (c : KnownPartsOfAFile) (e : (Nat × Nat) × Bytes)
    (start stop : Nat) (hf : findPart c.data start = some e) :
    KnownPartsOfAFile.fetch c start stop =
      if c.strict = false ∨ stop ≤ e.1.2 then
        some (((e.2.drop (start - e.1.1)).take (stop - start))
          ++ List.replicate (stop - start
              - ((e.2.drop (start - e.1.1)).take (stop - start)).length) 0)
      else
        fetchOrRaise c.fetcher
          ((e.2.drop (start - e.1.1)).take (stop - start))
          (start + ((e.2.drop (start - e.1.1)).take (stop - start)).length)
          stop := by
  unfold KnownPartsOfAFile.fetch
  rw [hf]

theorem kp_fetch_notfound (c : KnownPartsOfAFile) (start stop : Nat)
    (hf : findPart c.data start = none) :
    KnownPartsOfAFile.fetch c start stop
      = fetchOrRaise c.fetcher [] start stop := by
  unfold KnownPartsOfAFile.fetch
  rw [hf]

/-- C5 (amended): for a known-parts cache holding one part of length 100, a
read from 0 to 110 returns the 100 real bytes followed by 10 zero bytes
when strict is false; when strict is true it raises if no fetcher is
configured, and fetches the uncovered tail when a fetcher is present; in
either mode a read whose start lies outside every known part is never
zero-padded: it raises without a fetcher and fetches the whole range with
one. -/
theorem claimC5_amended (b sz : Nat) (bs : Bytes) (hlen : bs.length = 100)
    (f : Fetcher) :
    (∀ fo : Option Fetcher,
      KnownPartsOfAFile.fetch ⟨b, fo, sz, false, [((0, 100), bs)]⟩ 0 110
        = some (bs ++ List.replicate 10 0)) ∧
    KnownPartsOfAFile.fetch ⟨b, none, sz, true, [((0, 100), bs)]⟩ 0 110
      = none ∧
    KnownPartsOfAFile.fetch ⟨b, some f, sz, true, [((0, 100), bs)]⟩ 0 110
      = some (bs ++ f 100 110) ∧
    (∀ (c : KnownPartsOfAFile) (s e : Nat), findPart c.data s = none →
      KnownPartsOfAFile.fetch c s e
        = Option.map (fun fe => fe s e) c.fetcher) := by
  have hout : ((bs.drop (0 - 0)).take (110 - 0)) = bs := by
    rw [Nat.sub_zero, List.drop_zero]
    exact List.take_of_length_le (by omega)
  refine ⟨?_, ?_, ?_, ?_⟩
  · intro fo
    rw [kp_fetch_found ⟨b, fo, sz, false, [((0, 100), bs)]⟩ ((0, 100), bs)
      0 110 rfl]
    rw [if_pos (Or.inl rfl)]
    rw [hout, hlen]
  · rw [kp_fetch_found ⟨b, none, sz, true, [((0, 100), bs)]⟩ ((0, 100), bs)
      0 110 rfl]
    rw [if_neg (by rintro (h | h) <;> simp at h)]
    rfl
  · rw [kp_fetch_found ⟨b, some f, sz, true, [((0, 100), bs)]⟩ ((0, 100), bs)
      0 110 rfl]
    rw [if_neg (by rintro (h | h) <;> simp at h)]
    rw [hout, hlen]
    rfl
  · intro c s e hf
    rw [kp_fetch_notfound c s e hf]
    cases hc : c.fetcher with
    | none => rfl
    | some fe => simp [fetchOrRaise]

/-- C5 counterexample: with a fetcher configured, a strict-mode read that
extends 10 bytes past the known part does not raise: it fetches the
uncovered tail, exactly as the source docstring for `strict` describes
(the claim says the read raises whenever strict is true). -/
theorem claimC5_counterexample :
    KnownPartsOfAFile.fetch
      ⟨4, some (fun s e => List.replicate (e - s) 1), 110, true,
        [((0, 100), List.replicate 100 7)]⟩ 0 110
      = some (List.replicate 100 7 ++ List.replicate 10 1) := by decide

/-- C5 witness: the amended claim evaluated on a concrete part of
length 100: the non-strict read pads with 10 zeros, the strict read
without a fetcher raises, and a read starting outside every part with no
fetcher raises rather than padding. -/
theorem claimC5_witness :
    KnownPartsOfAFile.fetch
        ⟨4, none, 110, false, [((0, 100), List.replicate 100 7)]⟩ 0 110
      = some (List.replicate 100 7 ++ List.replicate 10 0) ∧
    KnownPartsOfAFile.fetch
        ⟨4, none, 110, true, [((0, 100), List.replicate 100 7)]⟩ 0 110
      = none ∧
    KnownPartsOfAFile.fetch
        ⟨4, none, 110, true, [((0, 100), List.replicate 100 7)]⟩ 200 210
      = Option.map (fun fe => fe 200 210)
          (⟨4, none, 110, true,
            [((0, 100), List.replicate 100 7)]⟩ : KnownPartsOfAFile).fetcher :=
  ⟨(claimC5_amended 4 110 (List.replicate 100 7) (by decide)
      (fun s e => List.replicate (e - s) 1)).1 none,
   (claimC5_amended 4 110 (List.replicate 100 7) (by decide)
      (fun s e => List.replicate (e - s) 1)).2.1,
   (claimC5_amended 4 110 (List.replicate 100 7) (by decide)
      (fun s e => List.replicate (e - s) 1)).2.2.2
      ⟨4, none, 110, true, [((0, 100), List.replicate 100 7)]⟩ 200 210
      (by decide)⟩

theorem write_step (B : Nat) (_hB : 1 ≤ B) (st : WriteFile)
    (hinv : WriteInv B st) (c : Bytes) (hc : c.length < B) :
    WriteInv B (st.write c) ∧
      uploadedBytes (st.write c) ++ (st.write c).buffer
        = (uploadedBytes st ++ st.buffer) ++ c ∧
      (st.write c).uploads.length * B + (st.write c).buffer.length
        = st.uploads.length * B + st.buffer.length + c.length := by
  obtain ⟨hbs, hbuf, hcl, hfo, hups⟩ := hinv
  unfold WriteFile.write WriteFile.flush
  simp only [if_neg (Bool.false_ne_true)]
  by_cases hfull : st.blocksize ≤ (st.buffer ++ c).length
  · rw [if_pos hfull]
    simp only [List.length_append] at hfull
    refine ⟨⟨hbs, ?_, hcl, hfo, ?_⟩, ?_, ?_⟩
    · simp only [List.length_drop, List.length_append]
      omega
    · intro u hu
      rcases List.mem_append.mp hu with h1 | h2
      · exact hups u h1
      · simp only [List.mem_singleton] at h2
        subst h2
        refine ⟨rfl, ?_⟩
        simp only [List.length_take, List.length_append]
        omega
    · simp only [uploadedBytes, List.map_append, List.flatten_append]
      simp only [List.map_cons, List.map_nil, List.flatten_cons,
        List.flatten_nil, List.append_nil]
      rw [List.append_assoc, List.take_append_drop, List.append_assoc]
    · simp only [List.length_append, List.length_drop, List.length_take,
        List.length_singleton, Nat.add_mul, Nat.one_mul]
      omega
  · rw [if_neg hfull]
    simp only [List.length_append] at hfull
    refine ⟨⟨hbs, by simp only [List.length_append]; omega, hcl, hfo, hups⟩,
      ?_, ?_⟩
    · simp [uploadedBytes, List.append_assoc]
    · simp only [List.length_append]
      omega

theorem writeAll_inv (B : Nat) (hB : 1 ≤ B) (chunks : List Bytes)
    (hc : ∀ c ∈ chunks, c.length < B) :
    ∀ st, WriteInv B st →
      WriteInv B (st.writeAll chunks) ∧
        uploadedBytes (st.writeAll chunks) ++ (st.writeAll chunks).buffer
          = (uploadedBytes st ++ st.buffer) ++ chunks.flatten ∧
        (st.writeAll chunks).uploads.length * B
            + (st.writeAll chunks).buffer.length
          = st.uploads.length * B + st.buffer.length
            + (chunks.map List.length).sum := by
  induction chunks with
  | nil =>
    intro st hinv
    exact ⟨hinv, by simp [WriteFile.writeAll], by simp [WriteFile.writeAll]⟩
  | cons c cs ih =>
    intro st hinv
    have hc1 : c.length < B := hc c (List.mem_cons_self _ _)
    have hcs : ∀ x ∈ cs, x.length < B :=
      fun x hx => hc x (List.mem_cons_of_mem _ hx)
    obtain ⟨hinv1, hcon1, hcnt1⟩ := write_step B hB st hinv c hc1
    obtain ⟨hinv2, hcon2, hcnt2⟩ := ih hcs (st.write c) hinv1
    have hstep : st.writeAll (c :: cs) = (st.write c).writeAll cs := rfl
    rw [hstep]
    refine ⟨hinv2, ?_, ?_⟩
    · rw [hcon2, hcon1]
      simp [List.append_assoc]
    · rw [hcnt2, hcnt1]
      simp only [List.map_cons, List.sum_cons]
      omega

/-- C4 (amended): writing N > 0 bytes through `write()` calls each smaller
than the block size and then closing produces exactly
`floor(N/block_size) + 1` upload-chunk calls — which equals
`ceil(N/block_size)` exactly when the block size does not divide N, and is
one more (a trailing empty final chunk) when it does; the concatenation of
the uploaded chunks equals the original bytes, and `final=True` is passed
on the last call and on no other. -/
theorem claimC4_amended (B : Nat) (chunks : List Bytes) (hB : 1 ≤ B)
    (hc : ∀ c ∈ chunks, c.length < B) :
    (((WriteFile.mkNew B).writeAll chunks).close).uploads.length
        = (chunks.map List.length).sum / B + 1 ∧
      uploadedBytes (((WriteFile.mkNew B).writeAll chunks).close)
        = chunks.flatten ∧
      (((WriteFile.mkNew B).writeAll chunks).close).uploads.map Prod.snd
        = List.replicate ((chunks.map List.length).sum / B) false
            ++ [true] := by
  have hinv0 : WriteInv B (WriteFile.mkNew B) :=
    ⟨rfl, by simpa [WriteFile.mkNew] using hB, rfl, rfl,
      by simp [WriteFile.mkNew]⟩
  obtain ⟨hinv, hcon, hcnt⟩ := writeAll_inv B hB chunks hc _ hinv0
  obtain ⟨hbs, hbuf, hcl, hfo, hups⟩ := hinv
  have hclose : ((WriteFile.mkNew B).writeAll chunks).close
      = { ((WriteFile.mkNew B).writeAll chunks) with
          uploads := ((WriteFile.mkNew B).writeAll chunks).uploads
            ++ [(((WriteFile.mkNew B).writeAll chunks).buffer, true)],
          buffer := [], forced := true, closed := true } := by
    unfold WriteFile.close
    rw [if_neg (by simp [hcl]), if_neg (by simp [hfo])]
    unfold WriteFile.flush
    rw [if_pos rfl]
  have hcnt2 : ((WriteFile.mkNew B).writeAll chunks).uploads.length * B
      + ((WriteFile.mkNew B).writeAll chunks).buffer.length
      = (chunks.map List.length).sum := by
    simpa [WriteFile.mkNew, uploadedBytes] using hcnt
  have hdiv : (chunks.map List.length).sum / B
      = ((WriteFile.mkNew B).writeAll chunks).uploads.length := by
    exact (And.left ((Nat.div_mod_unique hB).mpr
      ⟨by rw [Nat.mul_comm]; omega, hbuf⟩))
  have hflags : ((WriteFile.mkNew B).writeAll chunks).uploads.map Prod.snd
      = List.replicate
          ((WriteFile.mkNew B).writeAll chunks).uploads.length false := by
    rw [List.eq_replicate_iff]
    refine ⟨List.length_map _ _, ?_⟩
    intro b hb
    obtain ⟨u, hu, hub⟩ := List.mem_map.mp hb
    rw [← hub]
    exact (hups u hu).1
  refine ⟨?_, ?_, ?_⟩
  · rw [hclose]
    simp only [List.length_append, List.length_singleton]
    rw [hdiv]
  · rw [hclose]
    simp only [uploadedBytes, List.map_append, List.flatten_append,
      List.map_cons, List.map_nil, List.flatten_cons, List.flatten_nil,
      List.append_nil]
    have hcon2 : uploadedBytes ((WriteFile.mkNew B).writeAll chunks)
        ++ ((WriteFile.mkNew B).writeAll chunks).buffer = chunks.flatten := by
      simpa [WriteFile.mkNew, uploadedBytes] using hcon
    simpa [uploadedBytes] using hcon2
  · rw [hclose]
    simp only [List.map_append, List.map_cons, List.map_nil]
    rw [hflags, hdiv]

/-- C4 counterexample: with block size 2, writing 2 bytes as two 1-byte
chunks and closing produces two upload calls — one full block and one
trailing empty final chunk — not the claimed ceil(2/2) = 1. -/
theorem claimC4_counterexample :
    (((WriteFile.mkNew 2).writeAll [[7], [8]]).close).uploads
      = [([7, 8], false), ([], true)] ∧
    ¬ (((WriteFile.mkNew 2).writeAll [[7], [8]]).close).uploads.length
      = (2 + 2 - 1) / 2 := by decide

/-- C4 witness: the amended claim evaluated at block size 3 on chunks
totalling 5 bytes: two upload calls, bytes preserved in order, final flag
on the last call only. -/
theorem claimC4_witness :
    (((WriteFile.mkNew 3).writeAll [[1, 2], [3, 4], [5]]).close).uploads.length
        = ([[1, 2], [3, 4], [5]].map List.length).sum / 3 + 1 ∧
      uploadedBytes (((WriteFile.mkNew 3).writeAll [[1, 2], [3, 4], [5]]).close)
        = [[1, 2], [3, 4], [5]].flatten ∧
      (((WriteFile.mkNew 3).writeAll [[1, 2], [3, 4], [5]]).close).uploads.map
          Prod.snd
        = List.replicate (([[1, 2], [3, 4], [5]].map List.length).sum / 3)
            false ++ [true] :=
  claimC4_amended 3 [[1, 2], [3, 4], [5]] (by decide) (by decide)

/-- C8: double close is a no-op — a second `close()` returns the state
unchanged, so in particular no second upload or commit happens. -/
theorem claimC8_double_close (st : WriteFile) :
    st.close.close = st.close ∧ st.close.close.uploads = st.close.uploads := by
  have h : st.close.close = st.close := by
    by_cases h1 : st.closed
    · unfold WriteFile.close
      simp [h1]
    · unfold WriteFile.close
      simp [h1]
  exact ⟨h, by rw [h]⟩

/-- C7: running the batch runner on [ok, fail, ok] with batch size 2 and
stop_on_error false returns the outcomes index-aligned — the failure is
captured at its position without cancelling its batch-mate — and fires the
progress callback exactly 3 times, once per completed task. -/
theorem claimC7_batch_runner (a e b : Nat) :
    runCorosInChunks [Outcome.ok a, Outcome.err e, Outcome.ok b] 2
      = ([Outcome.ok a, Outcome.err e, Outcome.ok b], 3) := rfl

/-- C9 (amended): the read-mode constructor performs no pass-through
capability check. With an unknown size (no argument, no details size),
construction succeeds for the strategies that do no size arithmetic —
including readahead and parts, which are not pass-through-capable — and
fails with a TypeError raised by the strategy's own size arithmetic for
blockcache, background, first, all and mmap; with a known size every
strategy constructs. -/
theorem claimC9_amended (B s : Nat) (ct : CacheType) :
    (AbstractBufferedFile.initRB B none none ct
      = if ct = CacheType.blockcache ∨ ct = CacheType.background
            ∨ ct = CacheType.first ∨ ct = CacheType.all
            ∨ ct = CacheType.mmap
        then Except.error PyErr.typeErr
        else Except.ok ⟨B, none, ct⟩) ∧
    AbstractBufferedFile.initRB B (some s) none ct
      = Except.ok ⟨B, some s, ct⟩ := by
  cases ct <;> exact ⟨rfl, rfl⟩

/-- C9 counterexample: the readahead strategy is not pass-through-capable,
yet constructing a read-mode file with it and no known size succeeds — no
configuration error is raised at construction time. -/
theorem claimC9_counterexample :
    passThroughCapable CacheType.readahead = false ∧
    AbstractBufferedFile.initRB 5242880 none none CacheType.readahead
      = Except.ok ⟨5242880, none, CacheType.readahead⟩ := ⟨rfl, rfl⟩

theorem lastReq_le_length (l : List Nat) (k : Nat) : lastReq l k ≤ l.length := by
  induction l with
  | nil => simp [lastReq]
  | cons x xs ih =>
    unfold lastReq
    by_cases h : lastReq xs k ≠ 0
    · rw [if_pos h]; simpa using ih
    · rw [if_neg h]
      by_cases h2 : x = k <;> simp [h2]

theorem lastReq_append_self (pre : List Nat) (k : Nat) :
    lastReq (pre ++ [k]) k = pre.length + 1 := by
  induction pre with
  | nil => simp [lastReq]
  | cons x xs ih =>
    unfold lastReq
    rw [List.cons_append] at *
    simp only [lastReq] at ih ⊢
    rw [ih]
    simp

theorem lastReq_append_ne (pre : List Nat) (k k' : Nat) (h : k' ≠ k) :
    lastReq (pre ++ [k]) k' = lastReq pre k' := by
  induction pre with
  | nil => simp [lastReq, Ne.symm h]
  | cons x xs ih =>
    rw [List.cons_append]
    unfold lastReq
    rw [ih]

theorem lruLookup_some_mem {c : List (Nat × Nat)} {k v : Nat}
    (h : lruLookup c k = some v) : (k, v) ∈ c := by
  induction c with
  | nil => simp [lruLookup] at h
  | cons e rest ih =>
    by_cases he : e.1 = k
    · simp only [lruLookup, if_pos he] at h
      injection h with h2
      subst h2
      rw [← he, Prod.mk.eta]
      exact List.mem_cons_self _ _
    · simp only [lruLookup, if_neg he] at h
      exact List.mem_cons_of_mem _ (ih h)

theorem lruLookup_none {c : List (Nat × Nat)} {k : Nat}
    (h : lruLookup c k = none) : ∀ e ∈ c, e.1 ≠ k := by
  induction c with
  | nil => simp
  | cons e rest ih =>
    by_cases he : e.1 = k
    · simp [lruLookup, he] at h
    · simp only [lruLookup, if_neg he] at h
      intro a ha
      rcases List.mem_cons.mp ha with rfl | h2
      · exact he
      · exact ih h a h2

theorem assocKeys_eraseP (c : List (Nat × Nat)) (k : Nat) :
    (c.eraseP (fun e => decide (e.1 = k))).map Prod.fst
      = (c.map Prod.fst).eraseP (fun x => decide (x = k)) := by
  induction c with
  | nil => rfl
  | cons e rest ih =>
    by_cases he : e.1 = k <;>
      simp [List.eraseP_cons, he, ih]

theorem not_mem_eraseP_self {l : List Nat} (h : l.Nodup) (k : Nat) :
    k ∉ l.eraseP (fun x => decide (x = k)) := by
  induction l with
  | nil => simp
  | cons x xs ih =>
    rw [List.nodup_cons] at h
    by_cases hx : x = k
    · have hd : decide (x = k) = true := decide_eq_true hx
      rw [List.eraseP_cons, hd, cond_true]
      rw [hx] at h
      exact h.1
    · have hd : decide (x = k) = false := decide_eq_false hx
      rw [List.eraseP_cons, hd, cond_false]
      intro hmem
      rcases List.mem_cons.mp hmem with rfl | h2
      · exact hx rfl
      · exact ih h.2 h2

theorem lru_inv_nodup {f : Nat → Nat} {pre : List Nat} {s : UpdatableLRU}
    (hinv : LRUInv f pre s) : (s.cache.map Prod.fst).Nodup := by
  have hp : List.Pairwise (fun a b : Nat × Nat => a.1 ≠ b.1) s.cache :=
    hinv.2.imp (fun h heq => by rw [heq] at h; omega)
  exact List.pairwise_map.mpr hp

theorem lru_step (f : Nat → Nat) (pre : List Nat) (k : Nat)
    (s : UpdatableLRU) (hinv : LRUInv f pre s) :
    LRUInv f (pre ++ [k]) (s.callState f k) := by
  obtain ⟨hval, hpair⟩ := hinv
  have hnd : (s.cache.map Prod.fst).Nodup := lru_inv_nodup ⟨hval, hpair⟩
  unfold UpdatableLRU.callState UpdatableLRU.call
  cases hlk : lruLookup s.cache k with
  | some v =>
    have hkeyne : ∀ a ∈ s.cache.eraseP (fun x => decide (x.1 = k)),
        a.1 ≠ k := by
      intro a ha heq
      have hkeys : a.1
          ∈ (s.cache.eraseP (fun x => decide (x.1 = k))).map Prod.fst :=
        List.mem_map_of_mem _ ha
      rw [assocKeys_eraseP, heq] at hkeys
      exact not_mem_eraseP_self hnd k hkeys
    refine ⟨?_, ?_⟩
    · intro e he
      simp only [moveToEnd] at he
      rcases List.mem_append.mp he with h1 | h2
      · obtain ⟨hv2, hl2⟩ := hval e (List.mem_of_mem_eraseP h1)
        exact ⟨hv2, by rw [lastReq_append_ne pre k e.1 (hkeyne e h1)]; exact hl2⟩
      · simp only [List.mem_singleton] at h2
        subst h2
        refine ⟨(hval (k, v) (lruLookup_some_mem hlk)).1, ?_⟩
        rw [lastReq_append_self]
        omega
    · simp only [moveToEnd]
      rw [List.pairwise_append]
      refine ⟨?_, List.pairwise_singleton _ _, ?_⟩
      · refine List.Pairwise.imp_of_mem ?_
          (List.Pairwise.sublist (List.eraseP_sublist _) hpair)
        intro a b ha hb h
        rw [lastReq_append_ne pre k a.1 (hkeyne a ha),
          lastReq_append_ne pre k b.1 (hkeyne b hb)]
        exact h
      · intro a ha b hb
        simp only [List.mem_singleton] at hb
        subst hb
        rw [lastReq_append_ne pre k a.1 (hkeyne a ha), lastReq_append_self]
        have := lastReq_le_length pre a.1
        omega
  | none =>
    have hnotin : ∀ e ∈ s.cache, e.1 ≠ k := lruLookup_none hlk
    have hvals2 : ∀ e ∈ s.cache ++ [(k, f k)],
        e.2 = f e.1 ∧ lastReq (pre ++ [k]) e.1 ≠ 0 := by
      intro e he
      rcases List.mem_append.mp he with h1 | h2
      · obtain ⟨hv2, hl2⟩ := hval e h1
        exact ⟨hv2, by rw [lastReq_append_ne pre k e.1 (hnotin e h1)]; exact hl2⟩
      · simp only [List.mem_singleton] at h2
        subst h2
        refine ⟨rfl, ?_⟩
        rw [lastReq_append_self]
        omega
    have hpair2 : List.Pairwise
        (fun a b => lastReq (pre ++ [k]) a.1 < lastReq (pre ++ [k]) b.1)
        (s.cache ++ [(k, f k)]) := by
      rw [List.pairwise_append]
      refine ⟨List.Pairwise.imp_of_mem ?_ hpair,
        List.pairwise_singleton _ _, ?_⟩
      · intro a b ha hb h
        rw [lastReq_append_ne pre k a.1 (hnotin a ha),
          lastReq_append_ne pre k b.1 (hnotin b hb)]
        exact h
      · intro a ha b hb
        simp only [List.mem_singleton] at hb
        subst hb
        rw [lastReq_append_ne pre k a.1 (hnotin a ha), lastReq_append_self]
        have := lastReq_le_length pre a.1
        omega
    by_cases hov : s.maxSize < (s.cache ++ [(k, f k)]).length
    · rw [if_pos hov]
      exact ⟨fun e he => hvals2 e (List.mem_of_mem_drop he),
        List.Pairwise.sublist (List.drop_sublist _ _) hpair2⟩
    · rw [if_neg hov]
      exact ⟨hvals2, hpair2⟩

theorem runLRU_inv (f : Nat → Nat) (m : Nat) (ks : List Nat) :
    LRUInv f ks (runLRU f m ks) := by
  induction ks using List.reverseRecOn with
  | nil => exact ⟨fun e he => absurd he (List.not_mem_nil e), List.Pairwise.nil⟩
  | append_singleton pre k ih =>
    have hfold : runLRU f m (pre ++ [k])
        = (runLRU f m pre).callState f k := by
      simp [runLRU, List.foldl_append]
    rw [hfold]
    exact lru_step f pre k _ ih

theorem lru_capacity_aux (f : Nat → Nat) (ks : List Nat) :
    ∀ s : UpdatableLRU, s.cache.length ≤ s.maxSize →
      (ks.foldl (UpdatableLRU.callState f) s).cache.length
          ≤ (ks.foldl (UpdatableLRU.callState f) s).maxSize ∧
        (ks.foldl (UpdatableLRU.callState f) s).maxSize = s.maxSize := by
  induction ks with
  | nil => intro s h; exact ⟨h, rfl⟩
  | cons k ks ih =>
    intro s h
    have hstep : (s.callState f k).cache.length ≤ s.maxSize ∧
        (s.callState f k).maxSize = s.maxSize := by
      unfold UpdatableLRU.callState UpdatableLRU.call
      cases hlk : lruLookup s.cache k with
      | some v =>
        refine ⟨?_, rfl⟩
        show (moveToEnd s.cache k v).length ≤ s.maxSize
        unfold moveToEnd
        rw [List.length_append, List.length_singleton]
        have hmem : (k, v) ∈ s.cache := lruLookup_some_mem hlk
        have ht : (s.cache.eraseP (fun e => decide (e.1 = k))).length
            = s.cache.length - 1 :=
          List.length_eraseP_of_mem hmem (decide_eq_true rfl)
        have hpos : 0 < s.cache.length := List.length_pos_of_mem hmem
        omega
      | none =>
        by_cases hov : s.maxSize < (s.cache ++ [(k, f k)]).length
        · rw [if_pos hov]
          refine ⟨?_, rfl⟩
          simp only [List.length_drop, List.length_append,
            List.length_singleton]
          omega
        · rw [if_neg hov]
          refine ⟨?_, rfl⟩
          simp only [List.length_append, List.length_singleton] at hov ⊢
          omega
    obtain ⟨hlen1, hmax1⟩ := hstep
    obtain ⟨hA, hB⟩ := ih (s.callState f k) (by rw [hmax1]; exact hlen1)
    simp only [List.foldl_cons]
    exact ⟨hA, by rw [hB, hmax1]⟩

theorem runLRU_maxSize (f : Nat → Nat) (m : Nat) (ks : List Nat) :
    (runLRU f m ks).maxSize = m :=
  (lru_capacity_aux f ks (UpdatableLRU.mkNew m) (Nat.zero_le m)).2

/-- C3: for the LRU block map (`UpdatableLRU`, built with capacity
`maxblocks`): after any request sequence the resident entry count never
exceeds `maxblocks`; when a call evicts, the evicted key is a resident key
whose last touch is no later than any resident key's — the least recently
touched — and its entry is really removed by that call; and a key still
resident is served from the cache: the fetching function is not invoked and
the stored fetch result for that key is returned. -/
theorem claimC3_lru_invariants (f : Nat → Nat) (m : Nat) (ks pre : List Nat)
    (k e : Nat) (hm : 1 ≤ m) :
    (runLRU f m ks).cache.length ≤ m ∧
      ((runLRU f m pre).evicted k = some e →
        e ∈ (runLRU f m pre).cache.map Prod.fst ∧
          e ∉ ((runLRU f m pre).callState f k).cache.map Prod.fst ∧
          (∀ k2 ∈ (runLRU f m pre).cache.map Prod.fst,
            lastReq pre e ≤ lastReq pre k2)) ∧
      ((lruLookup (runLRU f m pre).cache k).isSome = true →
        (UpdatableLRU.call f (runLRU f m pre) k).1 = f k ∧
          (UpdatableLRU.call f (runLRU f m pre) k).2.2 = false) := by
  obtain ⟨hval, hpair⟩ := runLRU_inv f m pre
  refine ⟨?_, ?_, ?_⟩
  · have h := lru_capacity_aux f ks (UpdatableLRU.mkNew m) (Nat.zero_le m)
    have h2 := h.2
    have h1 := h.1
    rw [h2] at h1
    exact h1
  · intro hev
    unfold UpdatableLRU.evicted at hev
    cases hlk : lruLookup (runLRU f m pre).cache k with
    | some v => rw [hlk] at hev; simp at hev
    | none =>
      rw [hlk] at hev
      by_cases hif : (runLRU f m pre).maxSize
          < (runLRU f m pre).cache.length + 1
      · rw [if_pos hif] at hev
        cases hc : (runLRU f m pre).cache with
        | nil =>
          rw [hc] at hif
          rw [runLRU_maxSize] at hif
          simp at hif
          omega
        | cons e0 rest =>
          rw [hc] at hev
          simp only [Option.some.injEq] at hev
          subst hev
          have hnotin : ∀ a ∈ (runLRU f m pre).cache, a.1 ≠ k :=
            lruLookup_none hlk
          have hnd := lru_inv_nodup ⟨hval, hpair⟩
          have hlk2 : lruLookup (e0 :: rest) k = none := hc ▸ hlk
          have hif2 : (runLRU f m pre).maxSize < (e0 :: rest).length + 1 :=
            hc ▸ hif
          rw [hc] at hnd hpair
          refine ⟨?_, ?_, ?_⟩
          · exact List.mem_map_of_mem _ (List.mem_cons_self _ _)
          · unfold UpdatableLRU.callState UpdatableLRU.call
            rw [hlk]
            rw [if_pos (by rw [hc]; simpa using hif2)]
            rw [hc]
            intro hmem
            simp only [List.cons_append, List.drop_succ_cons,
              List.drop_zero, List.map_append, List.map_cons, List.map_nil,
              List.mem_append, List.mem_singleton] at hmem
            rcases hmem with h1 | h2
            · rw [List.map_cons, List.nodup_cons] at hnd
              exact hnd.1 h1
            · exact hnotin e0 (by rw [hc]; exact List.mem_cons_self _ _) h2
          · intro k2 hk2
            rw [List.map_cons] at hk2
            rcases List.mem_cons.mp hk2 with rfl | h2
            · exact Nat.le_refl _
            · obtain ⟨b, hb, hbk⟩ := List.mem_map.mp h2
              have := (List.pairwise_cons.mp hpair).1 b hb
              rw [hbk] at this
              omega
      · rw [if_neg hif] at hev
        simp at hev
  · intro hs
    cases hlk : lruLookup (runLRU f m pre).cache k with
    | none => rw [hlk] at hs; simp at hs
    | some v =>
      have hv : v = f k := by
        have := (hval (k, v) (lruLookup_some_mem hlk)).1
        simpa using this
      unfold UpdatableLRU.call
      rw [hlk, hv]
      exact ⟨rfl, rfl⟩

/-- C3 witness: capacity 2 with requests [0,1,2] leaves two resident blocks;
the next miss (key 3) evicts key 1, the least recently touched resident
(last touched at step 2, against step 3 for key 2), removing it; and a
request for the resident key 1 in the pre-eviction state returns its cached
fetch result without invoking the fetch function. -/
theorem claimC3_witness :
    (runLRU (fun x => x * 10) 2 [0, 1, 2]).cache.length ≤ 2 ∧
      (1 ∈ (runLRU (fun x => x * 10) 2 [0, 1, 2]).cache.map Prod.fst ∧
        1 ∉ ((runLRU (fun x => x * 10) 2 [0, 1, 2]).callState
              (fun x => x * 10) 3).cache.map Prod.fst ∧
        lastReq [0, 1, 2] 1 ≤ lastReq [0, 1, 2] 2) ∧
      ((UpdatableLRU.call (fun x => x * 10)
          (runLRU (fun x => x * 10) 2 [0, 1, 2]) 1).1 = (fun x => x * 10) 1 ∧
        (UpdatableLRU.call (fun x => x * 10)
          (runLRU (fun x => x * 10) 2 [0, 1, 2]) 1).2.2 = false) :=
  ⟨(claimC3_lru_invariants (fun x => x * 10) 2 [0, 1, 2] [0, 1, 2] 3 1
      (by decide)).1,
   by
     obtain ⟨h1, h2, h3⟩ :=
       (claimC3_lru_invariants (fun x => x * 10) 2 [0, 1, 2] [0, 1, 2] 3 1
         (by decide)).2.1 (by decide)
     exact ⟨h1, h2, h3 2 (by decide)⟩,
   (claimC3_lru_invariants (fun x => x * 10) 2 [0, 1, 2] [0, 1, 2] 1 0
      (by decide)).2.2 (by decide)⟩

/-- C2: a BlockCache with block size 4 over a 10-byte file whose fetcher
returns the file slice: read(1,7) returns bytes 1..6 with exactly two
fetcher calls, [0,4) and [4,8); a following read(0,4) on the resulting
state returns bytes 0..3 with no additional fetcher call (the log is
unchanged). -/
theorem claimC2_blockcache_scenario :
    (BlockCache.read (fun s e => ((List.range 10).drop s).take (e - s))
        (BlockCache.mkNew 4 10 32) 1 7).1 = [1, 2, 3, 4, 5, 6] ∧
      (BlockCache.read (fun s e => ((List.range 10).drop s).take (e - s))
        (BlockCache.mkNew 4 10 32) 1 7).2.log = [(0, 4), (4, 8)] ∧
      (BlockCache.read (fun s e => ((List.range 10).drop s).take (e - s))
        (BlockCache.read (fun s e => ((List.range 10).drop s).take (e - s))
          (BlockCache.mkNew 4 10 32) 1 7).2 0 4).1 = [0, 1, 2, 3] ∧
      (BlockCache.read (fun s e => ((List.range 10).drop s).take (e - s))
        (BlockCache.read (fun s e => ((List.range 10).drop s).take (e - s))
          (BlockCache.mkNew 4 10 32) 1 7).2 0 4).2.log
        = [(0, 4), (4, 8)] := by decide

theorem allBytes_length (size s e : Nat) (f : Fetcher) (hf : FetcherOK size f)
    (hse : s ≤ e) (hes : e ≤ size) :
    (AllBytes.read f size s e).length = e - s := by
  unfold AllBytes.read
  rw [List.length_take, List.length_drop, hf 0 size (Nat.zero_le _) (Nat.le_refl _)]
  omega

theorem firstChunk_length (size B s e : Nat) (f : Fetcher)
    (hf : FetcherOK size f) (hse : s ≤ e) (hes : e ≤ size) :
    (FirstChunkCache.read f B size s e).length = e - s := by
  unfold FirstChunkCache.read
  by_cases h1 : s < min B size
  · rw [if_pos h1]
    by_cases h2 : min B size < e
    · rw [if_pos h2]
      rw [List.length_append, List.length_take, List.length_drop,
        hf 0 (min B size) (Nat.zero_le _) (min_le_right _ _),
        hf (min B size) e (le_of_lt h2) hes]
      omega
    · rw [if_neg h2]
      rw [List.length_append, List.length_take, List.length_drop,
        hf 0 (min B size) (Nat.zero_le _) (min_le_right _ _),
        List.length_nil]
      omega
  · rw [if_neg h1]
    exact hf s e hse hes

theorem mmap_length (store : Nat → Nat) (s e : Nat) :
    (MMapCache.read store s e).length = e - s := by
  unfold MMapCache.read
  rw [List.length_map, List.length_range]

theorem readAhead_length (size B s e : Nat) (f : Fetcher)
    (hf : FetcherOK size f) (hse : s ≤ e) (hes : e ≤ size)
    (st : WindowState) (hwf : WindowWF size st) :
    (ReadAheadCache.read f size B st s e).1.length = e - s := by
  obtain ⟨hc, hss, hsz⟩ := hwf
  unfold ReadAheadCache.read
  by_cases h : st.start ≤ s ∧ e ≤ st.stop
  · rw [if_pos h]
    simp only [List.length_take, List.length_drop, hc]
    omega
  · rw [if_neg h]
    simp only [List.length_take]
    rw [hf s (min (max (s + B) e) size) (by omega) (min_le_right _ _)]
    omega

theorem bytesCache_length (size B s e : Nat) (f : Fetcher)
    (hf : FetcherOK size f) (hse : s ≤ e) (hes : e ≤ size)
    (st : WindowState) (hwf : WindowWF size st) :
    (BytesCache.read f size B st s e).1.length = e - s := by
  obtain ⟨hc, hss, hsz⟩ := hwf
  unfold BytesCache.read
  by_cases h : st.start ≤ s ∧ e ≤ st.stop
  · rw [if_pos h]
    simp only [List.length_take, List.length_drop, hc]
    omega
  · rw [if_neg h]
    by_cases h2 : st.start ≤ s ∧ s ≤ st.stop
    · rw [if_pos h2]
      simp only [List.length_take, List.length_drop, List.length_append, hc]
      rw [hf st.stop (min (max e (st.stop + B)) size) (by omega)
        (min_le_right _ _)]
      omega
    · rw [if_neg h2]
      simp only [List.length_take]
      rw [hf s (min (max e (s + B)) size) (by omega) (min_le_right _ _)]
      omega

theorem blockLookup_some_mem {c : List (Nat × Bytes)} {k : Nat} {v : Bytes}
    (h : blockLookup c k = some v) : (k, v) ∈ c := by
  induction c with
  | nil => simp [blockLookup] at h
  | cons a rest ih =>
    by_cases ha : a.1 = k
    · simp only [blockLookup, if_pos ha] at h
      injection h with h2
      subst h2
      rw [← ha, Prod.mk.eta]
      exact List.mem_cons_self _ _
    · simp only [blockLookup, if_neg ha] at h
      exact List.mem_cons_of_mem _ (ih h)

theorem fetchBlockCached_spec (f : Fetcher) (c : BlockCache) (k : Nat)
    (hwf : BlockWF f c) :
    (c.fetchBlockCached f k).1
        = f (k * c.blocksize) (min ((k + 1) * c.blocksize) c.size) ∧
      BlockWF f (c.fetchBlockCached f k).2 ∧
      (c.fetchBlockCached f k).2.blocksize = c.blocksize ∧
      (c.fetchBlockCached f k).2.size = c.size := by
  unfold BlockCache.fetchBlockCached
  cases hlk : blockLookup c.lru k with
  | some v =>
    have hmem : (k, v) ∈ c.lru := blockLookup_some_mem hlk
    refine ⟨hwf (k, v) hmem, ?_, rfl, rfl⟩
    intro a ha
    rcases List.mem_append.mp ha with h1 | h2
    · exact hwf a (List.mem_of_mem_eraseP h1)
    · simp only [List.mem_singleton] at h2
      subst h2
      exact hwf (k, v) hmem
  | none =>
    refine ⟨rfl, ?_, ?_, ?_⟩
    · intro a ha
      by_cases hov : c.maxblocks
          < (c.lru ++ [(k, f (k * c.blocksize)
              (min ((k + 1) * c.blocksize) c.size))]).length
      · rw [if_pos hov] at ha
        have ha2 := List.mem_of_mem_drop ha
        rcases List.mem_append.mp ha2 with h1 | h2
        · exact hwf a h1
        · simp only [List.mem_singleton] at h2
          subst h2
          rfl
      · rw [if_neg hov] at ha
        rcases List.mem_append.mp ha with h1 | h2
        · exact hwf a h1
        · simp only [List.mem_singleton] at h2
          subst h2
          rfl
    · rfl
    · rfl

theorem fetchBlocks_spec (f : Fetcher) (n : Nat) :
    ∀ (i0 : Nat) (c : BlockCache), FetcherOK c.size f → BlockWF f c →
      (∀ j, j < n → (i0 + j) * c.blocksize ≤ c.size) →
      (c.fetchBlocks f i0 n).2.blocksize = c.blocksize ∧
        (c.fetchBlocks f i0 n).2.size = c.size ∧
        BlockWF f (c.fetchBlocks f i0 n).2 ∧
        (c.fetchBlocks f i0 n).1.length
          = min ((i0 + n) * c.blocksize) c.size - i0 * c.blocksize := by
  induction n with
  | zero =>
    intro i0 c _ hwf _
    refine ⟨rfl, rfl, hwf, ?_⟩
    have : min (i0 * c.blocksize) c.size ≤ i0 * c.blocksize :=
      min_le_left _ _
    simp only [BlockCache.fetchBlocks, List.length_nil, Nat.add_zero]
    omega
  | succ n ih =>
    intro i0 c hf hwf hk
    obtain ⟨hval, hwf1, hbs1, hsz1⟩ := fetchBlockCached_spec f c i0 hwf
    have hk0 : i0 * c.blocksize ≤ c.size := by
      have := hk 0 (Nat.succ_pos n)
      simpa using this
    have hlen1 : (c.fetchBlockCached f i0).1.length
        = min ((i0 + 1) * c.blocksize) c.size - i0 * c.blocksize := by
      rw [hval]
      exact hf (i0 * c.blocksize) (min ((i0 + 1) * c.blocksize) c.size)
        (le_min (by rw [Nat.add_mul, Nat.one_mul]; omega) hk0)
        (min_le_right _ _)
    have hf2 : FetcherOK (c.fetchBlockCached f i0).2.size f := by
      rw [hsz1]; exact hf
    have hk2 : ∀ j, j < n →
        (i0 + 1 + j) * (c.fetchBlockCached f i0).2.blocksize
          ≤ (c.fetchBlockCached f i0).2.size := by
      intro j hj
      rw [hbs1, hsz1]
      have := hk (j + 1) (by omega)
      have harr : i0 + 1 + j = i0 + (j + 1) := by omega
      rw [harr]
      exact this
    obtain ⟨hbs2, hsz2, hwf2, hlen2⟩ :=
      ih (i0 + 1) (c.fetchBlockCached f i0).2 hf2 hwf1 hk2
    rw [hbs1] at hbs2 hlen2
    rw [hsz1] at hsz2 hlen2
    refine ⟨?_, ?_, hwf2, ?_⟩
    · show (BlockCache.fetchBlocks f (c.fetchBlockCached f i0).2
        (i0 + 1) n).2.blocksize = c.blocksize
      exact hbs2
    · show (BlockCache.fetchBlocks f (c.fetchBlockCached f i0).2
        (i0 + 1) n).2.size = c.size
      exact hsz2
    · show ((c.fetchBlockCached f i0).1
          ++ (BlockCache.fetchBlocks f (c.fetchBlockCached f i0).2
            (i0 + 1) n).1).length
        = min ((i0 + (n + 1)) * c.blocksize) c.size - i0 * c.blocksize
      rw [List.length_append, hlen1, hlen2]
      have h1 : (i0 + 1) * c.blocksize = i0 * c.blocksize + c.blocksize := by
        rw [Nat.add_mul, Nat.one_mul]
      have h2 : (i0 + 1 + n) * c.blocksize
          = i0 * c.blocksize + c.blocksize + n * c.blocksize := by
        rw [Nat.add_mul, Nat.add_mul, Nat.one_mul]
      have h3 : (i0 + (n + 1)) * c.blocksize
          = i0 * c.blocksize + c.blocksize + n * c.blocksize := by
        rw [Nat.add_mul, Nat.add_mul, Nat.one_mul]
        omega
      rw [h1, h2, h3]
      omega

theorem blockRead_length (f : Fetcher) (c : BlockCache) (s e : Nat)
    (hf : FetcherOK c.size f) (hwf : BlockWF f c) (hB : 1 ≤ c.blocksize)
    (hse : s ≤ e) (hes : e ≤ c.size) :
    (BlockCache.read f c s e).1.length = e - s := by
  unfold BlockCache.read
  by_cases hguard : e ≤ s ∨ c.size ≤ s
  · rw [if_pos hguard]
    simp only [List.length_nil]
    omega
  · rw [if_neg hguard]
    push_neg at hguard
    obtain ⟨hlt, hssize⟩ := hguard
    have hmin : min e c.size = e := min_eq_left hes
    rw [hmin]
    have hdivle : s / c.blocksize ≤ (e - 1) / c.blocksize :=
      Nat.div_le_div_right (by omega)
    have hn : s / c.blocksize
        + ((e - 1) / c.blocksize + 1 - s / c.blocksize)
        = (e - 1) / c.blocksize + 1 := by omega
    have hkj : ∀ j, j < (e - 1) / c.blocksize + 1 - s / c.blocksize →
        (s / c.blocksize + j) * c.blocksize ≤ c.size := by
      intro j hj
      have hle : s / c.blocksize + j ≤ (e - 1) / c.blocksize := by omega
      have h1 : (s / c.blocksize + j) * c.blocksize
          ≤ (e - 1) / c.blocksize * c.blocksize :=
        Nat.mul_le_mul_right _ hle
      have h2 : (e - 1) / c.blocksize * c.blocksize ≤ e - 1 :=
        Nat.div_mul_le_self _ _
      omega
    have hlen := (fetchBlocks_spec f
      ((e - 1) / c.blocksize + 1 - s / c.blocksize) (s / c.blocksize) c
      hf hwf hkj).2.2.2
    rw [List.length_take, List.length_drop, hlen, hn]
    have hsm : s / c.blocksize * c.blocksize ≤ s := Nat.div_mul_le_self _ _
    have h5 : (e - 1) / c.blocksize * c.blocksize + (e - 1) % c.blocksize
        = e - 1 := Nat.div_add_mod' _ _
    have h6 : (e - 1) % c.blocksize < c.blocksize := Nat.mod_lt _ (by omega)
    rw [Nat.add_mul, Nat.one_mul]
    omega

theorem kp_fetch_length (c : KnownPartsOfAFile) (s e : Nat)
    (hfo : ∀ g, c.fetcher = some g → FetcherOK c.size g)
    (hse : s ≤ e) (hes : e ≤ c.size) :
    ∀ bs, KnownPartsOfAFile.fetch c s e = some bs → bs.length = e - s := by
  intro bs hr
  cases hfp : findPart c.data s with
  | some p =>
    rw [kp_fetch_found c p s e hfp] at hr
    by_cases hcond : c.strict = false ∨ e ≤ p.1.2
    · rw [if_pos hcond] at hr
      injection hr with hr2
      rw [← hr2]
      simp only [List.length_append, List.length_replicate,
        List.length_take, List.length_drop]
      omega
    · rw [if_neg hcond] at hr
      unfold fetchOrRaise at hr
      cases hfe : c.fetcher with
      | none => rw [hfe] at hr; simp at hr
      | some g =>
        rw [hfe] at hr
        simp only [Option.some.injEq] at hr
        have hg := hfo g hfe
        rw [← hr]
        rw [List.length_append]
        have hlt : ((p.2.drop (s - p.1.1)).take (e - s)).length ≤ e - s := by
          rw [List.length_take]
          exact min_le_left _ _
        rw [hg (s + ((p.2.drop (s - p.1.1)).take (e - s)).length) e
          (by omega) hes]
        omega
  | none =>
    rw [kp_fetch_notfound c s e hfp] at hr
    unfold fetchOrRaise at hr
    cases hfe : c.fetcher with
    | none => rw [hfe] at hr; simp at hr
    | some g =>
      rw [hfe] at hr
      simp only [Option.some.injEq] at hr
      rw [← hr, List.nil_append]
      exact hfo g hfe s e hse hes

/-- C1: for every modelled cache-strategy variant, every fetcher satisfying
the range contract, and every pair of offsets with start ≤ end ≤ file_size,
the strategy's read returns exactly end - start bytes (for the stateful
variants, from any well-formed cache state). The known-parts variant either
raises — strict mode without a fetcher — or returns exactly end - start
bytes, zero padding arising only in its non-strict mode. -/
theorem claimC1_read_length (size B s e : Nat) (f : Fetcher)
    (hf : FetcherOK size f) (hB : 1 ≤ B) (hse : s ≤ e) (hes : e ≤ size) :
    (BaseCache.fetch f s e).length = e - s ∧
      (AllBytes.read f size s e).length = e - s ∧
      (FirstChunkCache.read f B size s e).length = e - s ∧
      (∀ store : Nat → Nat, (MMapCache.read store s e).length = e - s) ∧
      (∀ st : WindowState, WindowWF size st →
        (ReadAheadCache.read f size B st s e).1.length = e - s) ∧
      (∀ st : WindowState, WindowWF size st →
        (BytesCache.read f size B st s e).1.length = e - s) ∧
      (∀ c : BlockCache, c.blocksize = B → c.size = size → BlockWF f c →
        (BlockCache.read f c s e).1.length = e - s) ∧
      (∀ c : BlockCache, c.blocksize = B → c.size = size → BlockWF f c →
        (BackgroundBlockCache.read f c s e).1.length = e - s) ∧
      (∀ c : KnownPartsOfAFile, c.size = size →
        (∀ g, c.fetcher = some g → FetcherOK size g) →
        ∀ bs, KnownPartsOfAFile.fetch c s e = some bs →
          bs.length = e - s) := by
  refine ⟨hf s e hse hes, allBytes_length size s e f hf hse hes,
    firstChunk_length size B s e f hf hse hes,
    fun store => mmap_length store s e,
    fun st hwf => readAhead_length size B s e f hf hse hes st hwf,
    fun st hwf => bytesCache_length size B s e f hf hse hes st hwf,
    ?_, ?_, ?_⟩
  · intro c hbs hsz hwf
    exact blockRead_length f c s e (hsz ▸ hf) hwf (hbs ▸ hB) hse
      (hsz ▸ hes)
  · intro c hbs hsz hwf
    exact blockRead_length f c s e (hsz ▸ hf) hwf (hbs ▸ hB) hse
      (hsz ▸ hes)
  · intro c hsz hfo bs hr
    exact kp_fetch_length c s e (fun g hg => hsz ▸ hfo g hg) hse
      (hsz ▸ hes) bs hr

/-- C1 witness: the length property evaluated at file size 10, block size
4, read range [1,7), with the constant-zero fetcher, on fresh states of
each stateful variant and a known-parts cache holding the whole file. -/
theorem claimC1_witness :
    (BaseCache.fetch (fun a b => List.replicate (b - a) 0) 1 7).length
        = 7 - 1 ∧
      (AllBytes.read (fun a b => List.replicate (b - a) 0) 10 1 7).length
        = 7 - 1 ∧
      (FirstChunkCache.read (fun a b => List.replicate (b - a) 0)
          4 10 1 7).length = 7 - 1 ∧
      (MMapCache.read (fun _ => 0) 1 7).length = 7 - 1 ∧
      (ReadAheadCache.read (fun a b => List.replicate (b - a) 0) 10 4
          ⟨[], 0, 0⟩ 1 7).1.length = 7 - 1 ∧
      (BytesCache.read (fun a b => List.replicate (b - a) 0) 10 4
          ⟨[], 0, 0⟩ 1 7).1.length = 7 - 1 ∧
      (BlockCache.read (fun a b => List.replicate (b - a) 0)
          (BlockCache.mkNew 4 10 32) 1 7).1.length = 7 - 1 ∧
      (BackgroundBlockCache.read (fun a b => List.replicate (b - a) 0)
          (BlockCache.mkNew 4 10 32) 1 7).1.length = 7 - 1 ∧
      (List.replicate 6 5 : Bytes).length = 7 - 1 :=
  ⟨(claimC1_read_length 10 4 1 7 (fun a b => List.replicate (b - a) 0)
      (fun s e h1 h2 => List.length_replicate _ _) (by decide) (by decide)
      (by decide)).1,
   (claimC1_read_length 10 4 1 7 (fun a b => List.replicate (b - a) 0)
      (fun s e h1 h2 => List.length_replicate _ _) (by decide) (by decide)
      (by decide)).2.1,
   (claimC1_read_length 10 4 1 7 (fun a b => List.replicate (b - a) 0)
      (fun s e h1 h2 => List.length_replicate _ _) (by decide) (by decide)
      (by decide)).2.2.1,
   (claimC1_read_length 10 4 1 7 (fun a b => List.replicate (b - a) 0)
      (fun s e h1 h2 => List.length_replicate _ _) (by decide) (by decide)
      (by decide)).2.2.2.1 (fun _ => 0),
   (claimC1_read_length 10 4 1 7 (fun a b => List.replicate (b - a) 0)
      (fun s e h1 h2 => List.length_replicate _ _) (by decide) (by decide)
      (by decide)).2.2.2.2.1 ⟨[], 0, 0⟩ (by exact ⟨rfl, Nat.le_refl 0, by decide⟩),
   (claimC1_read_length 10 4 1 7 (fun a b => List.replicate (b - a) 0)
      (fun s e h1 h2 => List.length_replicate _ _) (by decide) (by decide)
      (by decide)).2.2.2.2.2.1 ⟨[], 0, 0⟩
      (by exact ⟨rfl, Nat.le_refl 0, by decide⟩),
   (claimC1_read_length 10 4 1 7 (fun a b => List.replicate (b - a) 0)
      (fun s e h1 h2 => List.length_replicate _ _) (by decide) (by decide)
      (by decide)).2.2.2.2.2.2.1 (BlockCache.mkNew 4 10 32) rfl rfl
      (fun a ha => absurd ha (List.not_mem_nil a)),
   (claimC1_read_length 10 4 1 7 (fun a b => List.replicate (b - a) 0)
      (fun s e h1 h2 => List.length_replicate _ _) (by decide) (by decide)
      (by decide)).2.2.2.2.2.2.2.1 (BlockCache.mkNew 4 10 32) rfl rfl
      (fun a ha => absurd ha (List.not_mem_nil a)),
   (claimC1_read_length 10 4 1 7 (fun a b => List.replicate (b - a) 0)
      (fun s e h1 h2 => List.length_replicate _ _) (by decide) (by decide)
      (by decide)).2.2.2.2.2.2.2.2
      ⟨4, none, 10, true, [((0, 10), List.replicate 10 5)]⟩ rfl
      (fun g hg => by simp at hg) (List.replicate 6 5) (by decide)⟩

end FsSpec
